import Mathlib

/-!
Verification development for the Gbubble transaction-graph explorer.

The core under study lives in the BubbleViz component (graph topology
engine, lines 116-302 of the component file) and in handleTraceExecution
(multi-hop trace crawler, lines 401-529).  The definitions below are a
shallow embedding of that code:

* JavaScript Map and Set are modelled by insertion-ordered association
  lists (mGet / mSet / mKeys / jsSetAdd): set on an existing key replaces
  the value in place, set on a fresh key appends, iteration order is
  insertion order, exactly like the JS collections.
* JS numbers used for transfer values are modelled by rationals; values
  occurring in the data are finite decimals, and the code performs only
  addition and comparison on them.
* Timestamps are modelled as integer milliseconds; the end-of-day
  adjustment setHours(23,59,59,999) on a midnight date adds 86399999 ms.
* The hop labeler's while-loop is modelled with an explicit fuel
  parameter; the fuel chosen in hopMapOf is provably sufficient (the
  theorems below never hit the fuel-exhaustion branch).
* Math.random() (the activityScore field of a node) is modelled by an
  explicit stream of values, one per constructed node in construction
  order, making the ambient nondeterminism of the source explicit.
* d3.interpolateSinebow is modelled by an injective constructor that
  records its numeric argument; its internal colour arithmetic is a
  floating-point rendering detail with no bearing on the modelled logic.
-/

/-- Lookup in an insertion-ordered association list (JS Map.get). -/
def mGet {α β : Type} [DecidableEq α] (m : List (α × β)) (k : α) : Option β :=
  (m.find? (fun p => decide (p.1 = k))).map (fun p => p.2)

/-- JS Map.set: replace in place when the key exists, append otherwise. -/
def mSet {α β : Type} [DecidableEq α] (m : List (α × β)) (k : α) (v : β) : List (α × β) :=
  if m.any (fun p => decide (p.1 = k)) then
    m.map (fun p => if p.1 = k then (k, v) else p)
  else m ++ [(k, v)]

/-- JS Map.keys() in iteration (= insertion) order. -/
def mKeys {α β : Type} (m : List (α × β)) : List α :=
  m.map (fun p => p.1)

/-- JS Set.add: append when absent, no-op when present. -/
def jsSetAdd {α : Type} [DecidableEq α] (s : List α) (x : α) : List α :=
  if x ∈ s then s else s ++ [x]

/-- ASCII lowercasing of one character (A-Z to a-z). -/
def charLower (c : Char) : Char :=
  if 65 ≤ c.toNat ∧ c.toNat ≤ 90 then Char.ofNat (c.toNat + 32) else c

/-- JS toLowerCase on the ASCII address strings the application handles
(chain addresses and label keys are ASCII). -/
def strLower (s : String) : String :=
  ⟨s.data.map charLower⟩

/-- Transfer type tag (the type field of a transfer record). -/
inductive TxType
  | native
  | erc20
deriving DecidableEq

/-- Transfer record, generic in the address type.  The main pipeline uses
addresses of type String (well-typed records); records with a possibly
missing from/to field (JS undefined) use Option String addresses.  Fields
the modelled code never reads (method, block, fee) are omitted. -/
structure Txg (α : Type) where
  txid : String
  hash : String
  fromA : α
  toA : α
  value : ℚ
  token : Option String
  timestamp : ℤ
  txType : TxType
deriving DecidableEq

/-- Well-typed transfer record (string from/to). -/
abbrev Transfer := Txg String

/-- Shared label record as returned by the label store. -/
structure LabelRec where
  address : String
  label : String
  tag_type : String
deriving DecidableEq

/-- Tokens available for the active type: a deduplicated, insertion-ordered
list of the token fields of transfers of the active type, with empty
strings removed (the filter(Boolean) step).  The source also sorts the
list for display; sorting is not observable by any of the modelled logic
(only membership and non-emptiness are consumed), so it is omitted. -/
def availableTokensOf (data : List Transfer) (activeType : TxType) : List String :=
  (((data.filter (fun t => decide (t.txType = activeType))).foldl
    (fun acc t => match t.token with
      | some tok => jsSetAdd acc tok
      | none => acc) [])).filter (fun s => decide (s ≠ ""))

/-- End-of-day adjustment: setHours(23,59,59,999) on a midnight timestamp. -/
def endOfDayMs (e : ℤ) : ℤ := e + 86399999

/-- Token-membership stage of the transfer filter (component lines
146-149): active only when availableTokens is non-empty; an empty
selection falls back to the full available-token set; transfers whose
token field is absent are excluded by the truthiness check on t.token. -/
def applyTokenFilter (avail : List String) (sel : Finset String)
    (l : List Transfer) : List Transfer :=
  if avail.length > 0 then
    let tokensToFilter : Finset String := if sel ≠ ∅ then sel else avail.toFinset
    l.filter (fun t => match t.token with
      | some tok => decide (tok ∈ tokensToFilter)
      | none => false)
  else l

/-- Transfer filter pipeline (component lines 137-149): type, date range,
dust threshold, token membership. -/
def filterTransfers (data : List Transfer) (activeType : TxType)
    (dstart dend : Option ℤ) (dust : ℚ) (avail : List String)
    (sel : Finset String) : List Transfer :=
  let f1 := data.filter (fun t => decide (t.txType = activeType))
  let f2 := match dstart with
    | none => f1
    | some s => f1.filter (fun t => decide (s ≤ t.timestamp))
  let f3 := match dend with
    | none => f2
    | some e => f2.filter (fun t => decide (t.timestamp ≤ endOfDayMs e))
  let f4 := if dust > 0 then f3.filter (fun t => decide (t.value ≥ dust)) else f3
  applyTokenFilter avail sel f4

/-- Aggregated directed link before the bidirectional marking pass. -/
structure LinkRaw (α : Type) where
  source : α
  target : α
  value : ℚ
  count : ℕ
deriving DecidableEq

/-- Builder state: balance map, undirected adjacency map, link map (keyed
by the ordered source-target pair; the source keys by the template
string from + "-" + to, which the ordered pair models). -/
structure GState (α : Type) where
  bal : List (α × ℚ)
  adj : List (α × List α)
  links : List ((α × α) × LinkRaw α)

/-- Add one directed adjacency entry (lines 156-159: create the Set when
absent, then add the neighbour). -/
def adjAdd {α : Type} [DecidableEq α] (m : List (α × List α)) (k v : α) :
    List (α × List α) :=
  mSet m k (jsSetAdd ((mGet m k).getD []) v)

/-- One iteration of the forEach over the filtered transfers (lines
151-168): accumulate balances on both endpoints, add both adjacency
directions, aggregate the directed link. -/
def gStep {α : Type} [DecidableEq α] (st : GState α) (tx : Txg α) : GState α :=
  let bal1 := mSet st.bal tx.fromA ((mGet st.bal tx.fromA).getD 0 + tx.value)
  let bal2 := mSet bal1 tx.toA ((mGet bal1 tx.toA).getD 0 + tx.value)
  let adj2 := adjAdd (adjAdd st.adj tx.fromA tx.toA) tx.toA tx.fromA
  let key := (tx.fromA, tx.toA)
  let cur := (mGet st.links key).getD
    { source := tx.fromA, target := tx.toA, value := 0, count := 0 }
  let links2 := mSet st.links key
    { cur with value := cur.value + tx.value, count := cur.count + 1 }
  { bal := bal2, adj := adj2, links := links2 }

/-- Build the balance / adjacency / link maps from the filtered transfers. -/
def buildMaps {α : Type} [DecidableEq α] (l : List (Txg α)) : GState α :=
  l.foldl gStep { bal := [], adj := [], links := [] }

/-- Undirected neighbour list of an address (adj.get with empty default). -/
def adjOf {α : Type} [DecidableEq α] (st : GState α) (a : α) : List α :=
  (mGet st.adj a).getD []

/-- Node universe: keys of the balance map, i.e. every address that
appeared as from or to of a retained transfer (line 170). -/
def validNodesOf {α : Type} (st : GState α) : List α :=
  mKeys st.bal

/-- Links whose both endpoints are valid nodes (line 171). -/
def preFilteredLinks {α : Type} [DecidableEq α] (st : GState α) : List (LinkRaw α) :=
  (st.links.map (fun p => p.2)).filter
    (fun l => decide (l.source ∈ validNodesOf st) && decide (l.target ∈ validNodesOf st))

/-- Aggregated link after the bidirectional marking pass. -/
structure LinkV (α : Type) where
  source : α
  target : α
  value : ℚ
  count : ℕ
  isBidirectional : Bool
deriving DecidableEq

/-- Bidirectional marking (lines 172-178): a link is marked iff the
reverse-keyed link is also present; unmarked links keep the JS-undefined
flag, modelled as false. -/
def markedLinks {α : Type} [DecidableEq α] (st : GState α) : List (LinkV α) :=
  let linkKeys := (preFilteredLinks st).map (fun l => (l.source, l.target))
  (preFilteredLinks st).map (fun l =>
    { source := l.source, target := l.target, value := l.value, count := l.count,
      isBidirectional := decide ((l.target, l.source) ∈ linkKeys) })

/-- Inner loop of the BFS (lines 199-208): visit the neighbours of the
dequeued node one by one; unvisited neighbours get hop level+1, are
marked visited and appended to the queue. -/
def bfsVisit (lvl : ℕ) : List String → Finset String → (String → Option ℕ) →
    List (String × ℕ) → Finset String × (String → Option ℕ) × List (String × ℕ)
  | [], vis, h, q => (vis, h, q)
  | n :: ns, vis, h, q =>
    if n ∈ vis then bfsVisit lvl ns vis h q
    else bfsVisit lvl ns (insert n vis) (Function.update h n (some (lvl + 1)))
      (q ++ [(n, lvl + 1)])

/-- The BFS while-loop (lines 195-209), with explicit fuel; hopMapOf
supplies fuel that provably suffices to drain the queue. -/
def bfsAux (adjF : String → List String) : ℕ → List (String × ℕ) →
    Finset String → (String → Option ℕ) → String → Option ℕ
  | 0, _, _, h => h
  | _ + 1, [], _, h => h
  | fuel + 1, (a, lvl) :: rest, vis, h =>
    let r := bfsVisit lvl (adjF a) vis h rest
    bfsAux adjF fuel r.2.2 r.1 r.2.1

/-- Seeding pass for one base address (the inner for-of over validNodes of
lines 185-193): every universe node whose lowercase form equals the
base's lowercase form gets hop 0, is pushed and marked visited. -/
def seedOne (validList : List String) (b : String)
    (st : List (String × ℕ) × Finset String × (String → Option ℕ)) :
    List (String × ℕ) × Finset String × (String → Option ℕ) :=
  validList.foldl (fun st v =>
    if (strLower v) = (strLower b) then
      (st.1 ++ [(v, 0)], insert v st.2.1, Function.update st.2.2 v (some 0))
    else st) st

/-- Multi-source seeding (lines 185-193): iterate all base addresses. -/
def bfsSeed (validList : List String) (bases : List String) :
    List (String × ℕ) × Finset String × (String → Option ℕ) :=
  bases.foldl (fun st b => seedOne validList b st) ([], ∅, fun _ => none)

/-- The hop labeler (lines 181-209): seed from the base addresses, then
run the BFS to quiescence.  The fuel equals initial queue length plus the
size of the node universe, which the termination argument shows is enough
for the queue to drain. -/
def hopMapOf (st : GState String) (bases : List String) : String → Option ℕ :=
  let vl := validNodesOf st
  let s := bfsSeed vl bases
  bfsAux (adjOf st) (s.1.length + vl.length) s.1 s.2.1 s.2.2

/-- A node is a BFS seed iff it is in the universe and case-insensitively
equals some base address. -/
def SeedP (validList : List String) (bases : List String) (v : String) : Prop :=
  v ∈ validList ∧ ∃ b ∈ bases, (strLower v) = (strLower b)

/-- Walks of a given length along the directed adjacency lists. -/
inductive WalkN (adjF : String → List String) : String → String → ℕ → Prop
  | nil (a : String) : WalkN adjF a a 0
  | cons {a b c : String} {n : ℕ} (hab : b ∈ adjF a) (w : WalkN adjF b c n) :
      WalkN adjF a c (n + 1)

/-- Undirected edge: an adjacency entry in either direction. -/
def UAdj (adjF : String → List String) (a b : String) : Prop :=
  b ∈ adjF a ∨ a ∈ adjF b

/-- Walks of a given length along undirected edges. -/
inductive UWalkN (adjF : String → List String) : String → String → ℕ → Prop
  | nil (a : String) : UWalkN adjF a a 0
  | cons {a b c : String} {n : ℕ} (hab : UAdj adjF a b) (w : UWalkN adjF b c n) :
      UWalkN adjF a c (n + 1)

/-- Invariant of the BFS loop state, relative to a seed predicate. -/
structure BfsInv (adjF : String → List String) (U : Finset String)
    (Seed : String → Prop) (q : List (String × ℕ)) (vis : Finset String)
    (h : String → Option ℕ) : Prop where
  visU : vis ⊆ U
  dom : ∀ v, (h v).isSome ↔ v ∈ vis
  qh : ∀ p ∈ q, h p.1 = some p.2
  sorted : q.Pairwise (fun p r => p.2 ≤ r.2)
  width : ∀ p ∈ q, ∀ r ∈ q, p.2 ≤ r.2 + 1
  seeds_vis : ∀ s, Seed s → s ∈ vis
  hA : ∀ v k, h v = some k → ∃ s, Seed s ∧ WalkN adjF s v k
  hB : ∀ v k, h v = some k → ∀ s j, Seed s → WalkN adjF s v j → k ≤ j
  closed : ∀ v ∈ vis, (∀ l, (v, l) ∉ q) → ∀ n ∈ adjF v, n ∈ vis

/-- Correctness of a finished hop map: every defined hop is witnessed by a
walk of exactly that length from a seed, no shorter walk exists, and every
node reachable from a seed has a defined hop. -/
def BfsGoal (adjF : String → List String) (Seed : String → Prop)
    (h : String → Option ℕ) : Prop :=
  (∀ v k, h v = some k → ∃ s, Seed s ∧ WalkN adjF s v k) ∧
  (∀ v k, h v = some k → ∀ s j, Seed s → WalkN adjF s v j → k ≤ j) ∧
  (∀ s v j, Seed s → WalkN adjF s v j → (h v).isSome)

/-- Substring test used by the node-type heuristic (String.includes). -/
def strContains (s sub : String) : Bool :=
  (List.range (s.toList.length + 1)).any
    (fun i => decide (sub.toList = (s.toList.drop i).take sub.toList.length))

/-- Node-type inference (lines 38-45): case-insensitive label lookup,
then substring heuristics on the lowercased id. -/
def getNodeType (id : String) (labels : List LabelRec) : String :=
  match labels.find? (fun l => decide ((strLower l.address) = (strLower id))) with
  | some l => l.tag_type
  | none =>
    if strContains (strLower id) "binance" || strContains (strLower id) "kraken" then "exchange"
    else if strContains (strLower id) "bridge" || strContains (strLower id) "safe" then "contract"
    else "wallet"

/-- Node colour: either one of the two constant default colours (a string
literal) or the sinebow interpolator applied to a counter value. -/
inductive ColorV
  | lit (s : String)
  | sinebow (t : ℚ)
deriving DecidableEq

/-- Graph node as produced by the topology engine (lines 259-268). -/
structure NodeV where
  id : String
  balance : ℚ
  ntype : String
  activityScore : ℚ
  groupId : ℕ
  groupSize : ℕ
  groupColor : ColorV
  hop : Option ℕ
deriving DecidableEq

/-- Node minus its activityScore field (used to state that everything
except the Math.random() sample is deterministic). -/
structure NodeCore where
  id : String
  balance : ℚ
  ntype : String
  groupId : ℕ
  groupSize : ℕ
  groupColor : ColorV
  hop : Option ℕ
deriving DecidableEq

/-- Forget the activityScore of a node. -/
def dropActivity (n : NodeV) : NodeCore :=
  { id := n.id, balance := n.balance, ntype := n.ntype, groupId := n.groupId,
    groupSize := n.groupSize, groupColor := n.groupColor, hop := n.hop }

/-- The golden-ratio conjugate literal 0.618033988749895 of line 236,
as the exact rational the float literal denotes. -/
def golden : ℚ := 618033988749895 / 1000000000000000

/-- JS x % 1 for non-negative x: the fractional part. -/
def fract (q : ℚ) : ℚ := q - Int.floor q

/-- Union-find find (lines 216-220): no path compression; a missing key is
first given itself as parent.  The chain walk is bounded by fuel; all call
sites pass one more than the number of entries, which on the parent forests
the builder creates always reaches the root. -/
def ufFind : ℕ → List (String × String) → String → List (String × String) × String
  | 0, par, i => (par, i)
  | fuel + 1, par, i =>
    match mGet par i with
    | none => (mSet par i i, i)
    | some p => if p = i then (par, i) else ufFind fuel par p

/-- Find with the standard fuel bound. -/
def ufFindTop (par : List (String × String)) (i : String) :
    List (String × String) × String :=
  ufFind (par.length + 1) par i

/-- Union (line 221): link the root of i under the root of j. -/
def ufUnion (par : List (String × String)) (i j : String) : List (String × String) :=
  let r1 := ufFindTop par i
  let r2 := ufFindTop r1.1 j
  if r1.2 ≠ r2.2 then mSet r2.1 r1.2 r2.2 else r2.1

/-- Lines 223-229: collect the node set from the link endpoints, union the
endpoints of every link, then add every remaining universe node as its own
singleton component. -/
def clusterPhase (st : GState String) : List String × List (String × String) :=
  let s1 := (preFilteredLinks st).foldl
    (fun (s : List String × List (String × String)) l =>
      (jsSetAdd (jsSetAdd s.1 l.source) l.target, ufUnion s.2 l.source l.target))
    ([], [])
  (validNodesOf st).foldl
    (fun s id => if id ∈ s.1 then s else (jsSetAdd s.1 id, mSet s.2 id id)) s1

/-- Lines 231-232: component sizes, counting universe members per root
(find threads the parent map as in the source). -/
def countPhase (nodeSet : List String) (par0 : List (String × String)) :
    List (String × String) × List (String × ℕ) :=
  nodeSet.foldl (fun (s : List (String × String) × List (String × ℕ)) id =>
    let r := ufFindTop s.1 id
    (r.1, mSet s.2 r.2 ((mGet s.2 r.2).getD 0 + 1))) (par0, [])

/-- State of the node-construction loop (lines 234-269). -/
structure NCState where
  par : List (String × String)
  rootColors : List (String × ColorV)
  counter : ℚ
  idx : ℕ
  acc : List NodeV

/-- One iteration of the node-construction forEach (lines 239-269) for
one id of the node set. -/
def ncStep (st : GState String) (counts : List (String × ℕ))
    (hops : String → Option ℕ) (labels : List LabelRec) (lightTheme : Bool)
    (rand : ℕ → ℚ) (s : NCState) (id : String) : NCState :=
  let bal := (mGet st.bal id).getD 0
  let r := ufFindTop s.par id
  let root := r.2
  let gsize := (mGet counts root).getD 1
  let defC : ColorV := if lightTheme then ColorV.lit "#334155" else ColorV.lit "#94a3b8"
  let trip : List (String × ColorV) × ℚ × (ColorV × ℕ) :=
    if gsize > 3 then
      match mGet s.rootColors root with
      | some c => (s.rootColors, s.counter, (c, 1))
      | none =>
        let c' := fract (s.counter + golden)
        (mSet s.rootColors root (ColorV.sinebow c'), c', (ColorV.sinebow c', 1))
    else (s.rootColors, s.counter, (defC, 0))
  let node : NodeV :=
    { id := id, balance := bal, ntype := getNodeType id labels,
      activityScore := rand s.idx, groupId := trip.2.2.2, groupSize := gsize,
      groupColor := trip.2.2.1, hop := hops id }
  { par := r.1, rootColors := trip.1, counter := trip.2.1, idx := s.idx + 1,
    acc := s.acc ++ [node] }

/-- Node construction (lines 239-269).  GROUP_THRESHOLD is 3; a component
strictly larger than 3 is a coloured cluster (groupId 1), smaller ones get
the theme default colour.  activityScore is Math.random(), modelled by the
stream rand indexed by construction order. -/
def buildNodes (st : GState String) (nodeSet : List String)
    (par0 : List (String × String)) (counts : List (String × ℕ))
    (hops : String → Option ℕ) (labels : List LabelRec) (lightTheme : Bool)
    (rand : ℕ → ℚ) : List NodeV :=
  (nodeSet.foldl (ncStep st counts hops labels lightTheme rand)
    { par := par0, rootColors := [], counter := 0, idx := 0, acc := [] }).acc

/-- Predicate of the cross-address relationship filter (lines 274-290),
as a function of the node's hop and id: keep hop 0, hop at least 2, and
hop-1 nodes having some neighbour with a defined positive hop. -/
def relatedPred (adjF : String → List String) (hops : String → Option ℕ)
    (hop : Option ℕ) (id : String) : Bool :=
  match hop with
  | none => false
  | some h =>
    if h = 0 then true
    else if h ≥ 2 then true
    else (adjF id).any (fun nb =>
      match hops nb with
      | some hh => decide (hh > 0)
      | none => false)

/-- Cross-address relationship filter (lines 273-291). -/
def relatedFilter (adjF : String → List String) (hops : String → Option ℕ)
    (ns : List NodeV) : List NodeV :=
  ns.filter (fun n => relatedPred adjF hops n.hop n.id)

/-- Math.min over a spread list: plus infinity on the empty list. -/
def listMinT (l : List ℚ) : WithTop ℚ :=
  l.foldr (fun x acc => min (x : WithTop ℚ) acc) ⊤

/-- Math.max over a spread list: minus infinity on the empty list. -/
def listMaxB (l : List ℚ) : WithBot ℚ :=
  l.foldr (fun x acc => max (x : WithBot ℚ) acc) ⊥

/-- JS x || d on a possibly infinite number: the default replaces exactly
the falsy value 0 (infinities are truthy). -/
def jsOrT (x : WithTop ℚ) (d : ℚ) : WithTop ℚ :=
  if x = ((0 : ℚ) : WithTop ℚ) then (d : WithTop ℚ) else x

/-- JS x || d for the max side. -/
def jsOrB (x : WithBot ℚ) (d : ℚ) : WithBot ℚ :=
  if x = ((0 : ℚ) : WithBot ℚ) then (d : WithBot ℚ) else x

/-- Lower end of the radius-scale domain (line 296): Math.min over the
final node balances, with || 0.001. -/
def scaleDomainLo (balances : List ℚ) : WithTop ℚ :=
  jsOrT (listMinT balances) (1 / 1000)

/-- Upper end of the radius-scale domain (line 297): Math.max with || 1. -/
def scaleDomainHi (balances : List ℚ) : WithBot ℚ :=
  jsOrB (listMaxB balances) 1

/-- Output of the topology engine: final nodes, final links, and the
domain of the radius scale it returns. -/
structure VizOut where
  nodes : List NodeV
  links : List (LinkV String)
  domLo : WithTop ℚ
  domHi : WithBot ℚ
deriving DecidableEq

/-- The full graph-construction useMemo (lines 131-301): filter transfers,
build maps, hop labels, clusters, nodes, the relationship filter, final
links, and the radius-scale domain. -/
def buildViz (data : List Transfer) (activeType : TxType)
    (dstart dend : Option ℤ) (dust : ℚ) (sel : Finset String)
    (bases : List String) (relatedOnly : Bool) (lightTheme : Bool)
    (labels : List LabelRec) (rand : ℕ → ℚ) : VizOut :=
  let avail := availableTokensOf data activeType
  let fd := filterTransfers data activeType dstart dend dust avail sel
  let st := buildMaps fd
  let pls := markedLinks st
  let hops := hopMapOf st bases
  let cp := clusterPhase st
  let cc := countPhase cp.1 cp.2
  let ns := buildNodes st cp.1 cc.1 cc.2 hops labels lightTheme rand
  let fns := if relatedOnly then relatedFilter (adjOf st) hops ns else ns
  let fset : List String := fns.map (fun n => n.id)
  let fls := pls.filter (fun l => decide (l.source ∈ fset) && decide (l.target ∈ fset))
  let bals := fns.map (fun n => n.balance)
  { nodes := fns, links := fls, domLo := scaleDomainLo bals, domHi := scaleDomainHi bals }

/-- The d3 scaleSqrt of line 299 with domain [mn, mx], range [20, 80] and
clamping, on a finite domain: the input is clamped to the domain, mapped
through the square root, normalised over the transformed domain (constant
one half when the transformed domain is degenerate, as in d3) and
interpolated into [20, 80].  d3 uses a sign-preserving square root; the
theorems below only use non-negative domains, where it agrees with
Real.sqrt. -/
noncomputable def rScale (mn mx x : ℚ) : ℝ :=
  let xc : ℝ := max (min (x : ℝ) (max (mn : ℝ) (mx : ℝ))) (min (mn : ℝ) (mx : ℝ))
  let a := Real.sqrt (mn : ℝ)
  let b := Real.sqrt (mx : ℝ)
  if b - a = 0 then 20 + 60 * (1 / 2)
  else 20 + 60 * ((Real.sqrt xc - a) / (b - a))

/-- Direction filter of the trace configuration. -/
inductive TraceDir
  | both
  | fromDir
  | toDir
deriving DecidableEq

/-- Trace configuration (the fields of traceConfig the crawl reads). -/
structure TraceCfg where
  includeNative : Bool
  includeERC20 : Bool
  direction : TraceDir
  hops : ℕ
deriving DecidableEq

/-- Terminal state of a crawl invocation: refused (zero targets, line
402), success (new data ingested, lines 503-511), noNewData (lines
512-520), or errorOut (the catch of line 522, reachable when ingestion
throws; per-address fetch failures are swallowed by Promise.allSettled and
never reach it). -/
inductive Outcome
  | refused
  | success
  | noNewData
  | errorOut
deriving DecidableEq

/-- Direction resolution of one transfer relative to the queried address
(lines 453-472, all comparisons lowercased): whether the transfer passes
the direction filter, and the resolved neighbour (empty when invalid). -/
def dirNeighbor (cfg : TraceCfg) (address : String) (tx : Transfer) : Bool × String :=
  let currentAddr := (strLower address)
  let isFrom := (strLower tx.fromA) = currentAddr
  let isTo := (strLower tx.toA) = currentAddr
  match cfg.direction with
  | TraceDir.fromDir => if isFrom then (true, tx.toA) else (false, "")
  | TraceDir.toDir => if isTo then (true, tx.fromA) else (false, "")
  | TraceDir.both =>
    if isFrom then (true, tx.toA)
    else if isTo then (true, tx.fromA) else (false, "")

/-- Per-transfer step of the crawl (lines 449-483): type filter, direction
resolution, neighbour extraction; a transfer with a valid direction and
truthy neighbour is collected, and an unvisited neighbour (lowercased)
joins the next frontier. -/
def traceTxStep (cfg : TraceCfg) (address : String) (vis : Finset String)
    (s : List Transfer × List String) (tx : Transfer) :
    List Transfer × List String :=
  if tx.txType = TxType.native ∧ cfg.includeNative = false then s
  else if tx.txType = TxType.erc20 ∧ cfg.includeERC20 = false then s
  else
    let dirRes := dirNeighbor cfg address tx
    if dirRes.1 = true ∧ dirRes.2 ≠ "" then
      let nl := (strLower dirRes.2)
      (s.1 ++ [tx], if nl ∈ vis then s.2 else jsSetAdd s.2 nl)
    else s

/-- Per-address fetch and processing (lines 445-484): a rejected fetch is
isolated by Promise.allSettled and contributes nothing (none models the
rejection); a fulfilled fetch folds its transfers through traceTxStep. -/
def traceAddr (cfg : TraceCfg) (provider : String → Option (List Transfer))
    (vis : Finset String) (s : List Transfer × List String) (address : String) :
    List Transfer × List String :=
  match provider address with
  | none => s
  | some txs => txs.foldl (traceTxStep cfg address vis) s

/-- One hop layer (lines 438-489): process every frontier address.  The
batch partitioning (size 5) and the 500 ms inter-batch delay only schedule
these same per-address computations and are not observable in the
collected/frontier results, so the layer is modelled as the fold over the
frontier. -/
def traceLayer (cfg : TraceCfg) (provider : String → Option (List Transfer))
    (vis : Finset String) (frontier : List String) :
    List Transfer × List String :=
  frontier.foldl (traceAddr cfg provider vis) ([], [])

/-- Result of the layer loop, instrumented with each layer's discovered
frontier list (needed to state the deduplication properties). -/
structure LayersOut where
  collected : List Transfer
  layers : List (List String)
  finalFrontier : List String
  visited : Finset String
deriving DecidableEq

/-- The layer loop (lines 430-499): stop early on an empty frontier;
otherwise run the layer, merge the queried addresses (lowercased) into the
session-visited set, and continue on the discovered frontier. -/
def runLayers (cfg : TraceCfg) (provider : String → Option (List Transfer)) :
    ℕ → List String → Finset String → LayersOut
  | 0, frontier, vis =>
    { collected := [], layers := [], finalFrontier := frontier, visited := vis }
  | n + 1, frontier, vis =>
    if frontier = [] then
      { collected := [], layers := [], finalFrontier := frontier, visited := vis }
    else
      let lr := traceLayer cfg provider vis frontier
      let vis' := vis ∪ (frontier.map strLower).toFinset
      let rest := runLayers cfg provider n lr.2 vis'
      { collected := lr.1 ++ rest.collected, layers := lr.2 :: rest.layers,
        finalFrontier := rest.finalFrontier, visited := rest.visited }

/-- Result of a whole crawl invocation. -/
structure TraceOut where
  outcome : Outcome
  traced : Finset String
  collected : List Transfer
  layers : List (List String)
  finalFrontier : List String
deriving DecidableEq

/-- handleTraceExecution (lines 401-529): refuse on zero targets before
any fetch; seed the session-visited set with the lowercased traced set and
targets; run the layers; on collected data ingest and commit the whole
session-visited set (ingestOk false models onAddData throwing, landing in
the catch, which leaves tracedAddresses untouched); on zero collected data
commit only the lowercased targets and report no new data. -/
def handleTraceExecution (traced : Finset String) (targets : List String)
    (cfg : TraceCfg) (provider : String → Option (List Transfer))
    (ingestOk : Bool) : TraceOut :=
  if targets = [] then
    { outcome := Outcome.refused, traced := traced, collected := [],
      layers := [], finalFrontier := [] }
  else
    let vis0 := (traced.image strLower) ∪ (targets.map strLower).toFinset
    let lo := runLayers cfg provider cfg.hops targets vis0
    if lo.collected ≠ [] then
      if ingestOk then
        { outcome := Outcome.success, traced := traced ∪ lo.visited,
          collected := lo.collected, layers := lo.layers,
          finalFrontier := lo.finalFrontier }
      else
        { outcome := Outcome.errorOut, traced := traced,
          collected := lo.collected, layers := lo.layers,
          finalFrontier := lo.finalFrontier }
    else
      { outcome := Outcome.noNewData,
        traced := traced ∪ (targets.map strLower).toFinset,
        collected := lo.collected, layers := lo.layers,
        finalFrontier := lo.finalFrontier }

/-- Total contribution of retained transfers to the balance of one
address under exact string identity: each transfer adds its value once
for an exact from-match and once for an exact to-match. -/
def balContrib {α : Type} [DecidableEq α] (a : α) (l : List (Txg α)) : ℚ :=
  (l.map (fun tx =>
    (if tx.fromA = a then tx.value else 0) + (if tx.toA = a then tx.value else 0))).sum

/-- A native transfer with the given endpoints and value (concrete data
for the counterexamples and witnesses). -/
def mkNative (f t : String) (v : ℚ) : Transfer :=
  { txid := "1", hash := "h", fromA := f, toA := t, value := v, token := none,
    timestamp := 0, txType := TxType.native }

/-- A native transfer carrying token X. -/
def tokTx : Transfer :=
  { txid := "1", hash := "h", fromA := "a", toA := "b", value := 2,
    token := some "X", timestamp := 0, txType := TxType.native }

/-- A malformed record: the from field is missing (JS undefined). -/
def badTx : Txg (Option String) :=
  { txid := "1", hash := "h", fromA := none, toA := some "b", value := 5,
    token := none, timestamp := 0, txType := TxType.native }

/-- Trace configuration: both directions, all types, hop budget 1. -/
def cfgBoth1 : TraceCfg :=
  { includeNative := true, includeERC20 := true, direction := TraceDir.both, hops := 1 }

/-- Trace configuration: both directions, all types, hop budget 2. -/
def cfgBoth2 : TraceCfg :=
  { includeNative := true, includeERC20 := true, direction := TraceDir.both, hops := 2 }

/-- Provider returning one transfer a to b for address a, rejecting
every other request. -/
def provAB : String → Option (List Transfer) :=
  fun a => if a = "a" then some [mkNative "a" "b" 1] else none

/-- Provider for the rediscovery scenario: a sends to b and c, b sends to
c, c has an empty history. -/
def provDup : String → Option (List Transfer) :=
  fun a =>
    if a = "a" then some [mkNative "a" "b" 1, mkNative "a" "c" 1]
    else if a = "b" then some [mkNative "b" "c" 1]
    else if a = "c" then some [] else none

/-! Helper lemmas about the JS collection models. -/

theorem jsSetAdd_mem {α : Type} [DecidableEq α] (s : List α) (x y : α) :
    y ∈ jsSetAdd s x ↔ y ∈ s ∨ y = x := by
  unfold jsSetAdd
  by_cases h : x ∈ s
  · simp only [if_pos h]
    constructor
    · exact Or.inl
    · rintro (hy | rfl)
      · exact hy
      · exact h
  · simp [if_neg h]

theorem jsSetAdd_nodup {α : Type} [DecidableEq α] (s : List α) (x : α)
    (h : s.Nodup) : (jsSetAdd s x).Nodup := by
  unfold jsSetAdd
  by_cases hx : x ∈ s
  · simpa [if_pos hx]
  · simpa [if_neg hx, List.nodup_append, h]

theorem mGet_mSet_self {α β : Type} [DecidableEq α] (m : List (α × β)) (k : α) (v : β) :
    mGet (mSet m k v) k = some v := by
  unfold mGet mSet
  by_cases hany : m.any (fun p => decide (p.1 = k)) = true
  · simp only [if_pos hany]
    induction m with
    | nil => simp at hany
    | cons p t ih =>
      by_cases hp : p.1 = k
      · simp [List.find?, hp]
      · simp only [List.any_cons, Bool.or_eq_true, decide_eq_true_eq] at hany
        rcases hany with h1 | h2
        · exact absurd h1 hp
        · simpa [List.find?, hp] using ih h2
  · simp only [if_neg hany]
    have hnone : m.find? (fun p => decide (p.1 = k)) = none := by
      rw [List.find?_eq_none]
      intro p hp
      simp only [decide_eq_true_eq]
      intro hk
      exact hany (List.any_eq_true.mpr ⟨p, hp, by simpa using hk⟩)
    simp [List.find?_append, hnone, List.find?]

theorem mGet_mSet_ne {α β : Type} [DecidableEq α] (m : List (α × β)) (k k' : α) (v : β)
    (h : k' ≠ k) : mGet (mSet m k v) k' = mGet m k' := by
  unfold mGet mSet
  by_cases hany : m.any (fun p => decide (p.1 = k)) = true
  · simp only [if_pos hany]
    clear hany
    induction m with
    | nil => simp
    | cons p t ih =>
      by_cases hp : p.1 = k
      · have h1 : ¬((if p.1 = k then (k, v) else p).1 = k') = true := by
          simp [if_pos hp]
          exact fun hh => h hh.symm
        have h2 : ¬(p.1 = k') := by rw [hp]; exact fun hh => h hh.symm
        rw [List.map_cons, List.find?_cons_of_neg _ (by simpa using h1),
          List.find?_cons_of_neg _ (by simpa using h2)]
        exact ih
      · by_cases hp' : p.1 = k'
        · have h1 : ((if p.1 = k then (k, v) else p).1 = k') := by
            rw [if_neg hp]; exact hp' 
          rw [List.map_cons, List.find?_cons_of_pos _ (by simpa using h1),
            List.find?_cons_of_pos _ (by simpa using hp')]
          simp [if_neg hp]
        · have h1 : ¬((if p.1 = k then (k, v) else p).1 = k') := by simp [if_neg hp, hp']
          rw [List.map_cons, List.find?_cons_of_neg _ (by simpa using h1),
            List.find?_cons_of_neg _ (by simpa using hp')]
          exact ih
  · simp only [if_neg hany]
    rw [List.find?_append]
    by_cases hfound : (m.find? (fun p => decide (p.1 = k'))).isSome
    · obtain ⟨p, hp⟩ := Option.isSome_iff_exists.mp hfound
      simp [hp]
    · have hnone : m.find? (fun p => decide (p.1 = k')) = none :=
        Option.not_isSome_iff_eq_none.mp hfound
      simp [hnone, List.find?, h.symm]

theorem mem_mKeys_mSet {α β : Type} [DecidableEq α] (m : List (α × β)) (k : α) (v : β)
    (a : α) : a ∈ mKeys (mSet m k v) ↔ a = k ∨ a ∈ mKeys m := by
  unfold mKeys mSet
  by_cases hany : m.any (fun p => decide (p.1 = k)) = true
  · simp only [if_pos hany]
    rw [List.any_eq_true] at hany
    obtain ⟨p0, hp0, hp0k⟩ := hany
    simp only [decide_eq_true_eq] at hp0k
    simp only [List.map_map, List.mem_map, Function.comp]
    constructor
    · rintro ⟨p, hp, hpa⟩
      by_cases hpk : p.1 = k
      · simp only [if_pos hpk] at hpa
        exact Or.inl hpa.symm
      · simp only [if_neg hpk] at hpa
        exact Or.inr ⟨p, hp, hpa⟩
    · rintro (rfl | ⟨p, hp, hpa⟩)
      · exact ⟨p0, hp0, by simp [hp0k]⟩
      · by_cases hpk : p.1 = k
        · exact ⟨p, hp, by simp [hpk, hpk ▸ hpa]⟩
        · by_cases hak : a = k
          · exact ⟨p0, hp0, by simp [hp0k, hak]⟩
          · refine ⟨p, hp, ?_⟩
            rw [if_neg hpk]; exact hpa
  · simp only [if_neg hany]
    simp only [List.map_append, List.mem_append, List.map_cons, List.map_nil,
      List.mem_cons, List.not_mem_nil, or_false]
    tauto

theorem mGet_isSome_iff {α β : Type} [DecidableEq α] (m : List (α × β)) (a : α) :
    (mGet m a).isSome ↔ a ∈ mKeys m := by
  unfold mGet mKeys
  cases hf : m.find? (fun p => decide (p.1 = a)) with
  | none =>
    rw [List.find?_eq_none] at hf
    constructor
    · intro hs
      simp at hs
    · intro hmem
      obtain ⟨p, hp, hpa⟩ := List.mem_map.mp hmem
      exact absurd hpa (by simpa using hf p hp)
  | some p =>
    have hmem := List.mem_of_find?_eq_some hf
    have hpa : p.1 = a := by simpa using List.find?_some hf
    exact iff_of_true (by simp) (List.mem_map.mpr ⟨p, hmem, hpa⟩)

/-! Characterisations of the built maps. -/

theorem adjAdd_mem {α : Type} [DecidableEq α] (m : List (α × List α)) (k v a b : α) :
    b ∈ (mGet (adjAdd m k v) a).getD [] ↔
      b ∈ (mGet m a).getD [] ∨ (a = k ∧ b = v) := by
  unfold adjAdd
  by_cases hak : a = k
  · subst hak
    rw [mGet_mSet_self]
    simp [jsSetAdd_mem]
  · rw [mGet_mSet_ne _ _ _ _ hak]
    simp [hak]

theorem foldl_gStep_adj_mem {α : Type} [DecidableEq α] (l : List (Txg α))
    (st : GState α) (a b : α) :
    b ∈ (mGet (l.foldl gStep st).adj a).getD [] ↔
      b ∈ (mGet st.adj a).getD [] ∨
        ∃ tx ∈ l, (tx.fromA = a ∧ tx.toA = b) ∨ (tx.toA = a ∧ tx.fromA = b) := by
  induction l generalizing st with
  | nil => simp
  | cons tx t ih =>
    rw [List.foldl_cons, ih]
    have hstep : b ∈ (mGet (gStep st tx).adj a).getD [] ↔
        b ∈ (mGet st.adj a).getD [] ∨
          (tx.fromA = a ∧ tx.toA = b) ∨ (tx.toA = a ∧ tx.fromA = b) := by
      show b ∈ (mGet (adjAdd (adjAdd st.adj tx.fromA tx.toA) tx.toA tx.fromA) a).getD [] ↔ _
      rw [adjAdd_mem, adjAdd_mem]
      constructor
      · rintro ((hb | ⟨rfl, rfl⟩) | ⟨rfl, rfl⟩)
        · exact Or.inl hb
        · exact Or.inr (Or.inl ⟨rfl, rfl⟩)
        · exact Or.inr (Or.inr ⟨rfl, rfl⟩)
      · rintro (hb | ⟨rfl, rfl⟩ | ⟨rfl, rfl⟩)
        · exact Or.inl (Or.inl hb)
        · exact Or.inl (Or.inr ⟨rfl, rfl⟩)
        · exact Or.inr ⟨rfl, rfl⟩
    rw [hstep]
    simp only [List.mem_cons]
    constructor
    · rintro ((hb | htx) | ⟨tx', htx', hc⟩)
      · exact Or.inl hb
      · exact Or.inr ⟨tx, Or.inl rfl, htx⟩
      · exact Or.inr ⟨tx', Or.inr htx', hc⟩
    · rintro (hb | ⟨tx', htx' | htx', hc⟩)
      · exact Or.inl (Or.inl hb)
      · exact Or.inl (Or.inr (htx' ▸ hc))
      · exact Or.inr ⟨tx', htx', hc⟩

theorem adjOf_buildMaps_mem {α : Type} [DecidableEq α] (l : List (Txg α)) (a b : α) :
    b ∈ adjOf (buildMaps l) a ↔
      ∃ tx ∈ l, (tx.fromA = a ∧ tx.toA = b) ∨ (tx.toA = a ∧ tx.fromA = b) := by
  unfold adjOf buildMaps
  rw [foldl_gStep_adj_mem]
  simp [mGet]

theorem adjOf_buildMaps_symm {α : Type} [DecidableEq α] (l : List (Txg α)) (a b : α)
    (h : b ∈ adjOf (buildMaps l) a) : a ∈ adjOf (buildMaps l) b := by
  rw [adjOf_buildMaps_mem] at h ⊢
  obtain ⟨tx, htx, hc | hc⟩ := h
  · exact ⟨tx, htx, Or.inr ⟨hc.2, hc.1⟩⟩
  · exact ⟨tx, htx, Or.inl ⟨hc.2, hc.1⟩⟩

theorem foldl_gStep_balKeys_mem {α : Type} [DecidableEq α] (l : List (Txg α))
    (st : GState α) (a : α) :
    a ∈ mKeys (l.foldl gStep st).bal ↔
      a ∈ mKeys st.bal ∨ ∃ tx ∈ l, tx.fromA = a ∨ tx.toA = a := by
  induction l generalizing st with
  | nil => simp
  | cons tx t ih =>
    rw [List.foldl_cons, ih]
    have hstep : a ∈ mKeys (gStep st tx).bal ↔
        a ∈ mKeys st.bal ∨ tx.fromA = a ∨ tx.toA = a := by
      show a ∈ mKeys (mSet (mSet st.bal tx.fromA _) tx.toA _) ↔ _
      rw [mem_mKeys_mSet, mem_mKeys_mSet]
      constructor
      · rintro (rfl | rfl | h)
        · exact Or.inr (Or.inr rfl)
        · exact Or.inr (Or.inl rfl)
        · exact Or.inl h
      · rintro (h | rfl | rfl)
        · exact Or.inr (Or.inr h)
        · exact Or.inr (Or.inl rfl)
        · exact Or.inl rfl
    rw [hstep]
    simp only [List.mem_cons]
    constructor
    · rintro ((h | h | h) | ⟨tx', htx', hc⟩)
      · exact Or.inl h
      · exact Or.inr ⟨tx, Or.inl rfl, Or.inl h⟩
      · exact Or.inr ⟨tx, Or.inl rfl, Or.inr h⟩
      · exact Or.inr ⟨tx', Or.inr htx', hc⟩
    · rintro (h | ⟨tx', htx' | htx', hc⟩)
      · exact Or.inl (Or.inl h)
      · subst htx'
        exact Or.inl (Or.inr hc)
      · exact Or.inr ⟨tx', htx', hc⟩

theorem validNodesOf_mem {α : Type} [DecidableEq α] (l : List (Txg α)) (a : α) :
    a ∈ validNodesOf (buildMaps l) ↔ ∃ tx ∈ l, tx.fromA = a ∨ tx.toA = a := by
  unfold validNodesOf buildMaps
  rw [foldl_gStep_balKeys_mem]
  simp [mKeys]

theorem adjOf_buildMaps_sub_validNodes {α : Type} [DecidableEq α] (l : List (Txg α))
    (a b : α) (h : b ∈ adjOf (buildMaps l) a) : b ∈ validNodesOf (buildMaps l) := by
  rw [adjOf_buildMaps_mem] at h
  rw [validNodesOf_mem]
  obtain ⟨tx, htx, hc | hc⟩ := h
  · exact ⟨tx, htx, Or.inr hc.2⟩
  · exact ⟨tx, htx, Or.inl hc.2⟩

theorem gStep_bal_get {α : Type} [DecidableEq α] (st : GState α) (tx : Txg α) (a : α) :
    (mGet (gStep st tx).bal a).getD 0 =
      (mGet st.bal a).getD 0 +
        ((if tx.fromA = a then tx.value else 0) + (if tx.toA = a then tx.value else 0)) := by
  show (mGet (mSet (mSet st.bal tx.fromA ((mGet st.bal tx.fromA).getD 0 + tx.value)) tx.toA
      ((mGet (mSet st.bal tx.fromA ((mGet st.bal tx.fromA).getD 0 + tx.value)) tx.toA).getD 0
        + tx.value)) a).getD 0 = _
  by_cases hta : a = tx.toA
  · by_cases hfa : a = tx.fromA
    · rw [← hta, ← hfa, mGet_mSet_self, mGet_mSet_self]
      simp only [Option.getD_some, if_pos rfl, if_true]
      ring
    · rw [← hta, mGet_mSet_self, mGet_mSet_ne _ _ _ _ hfa]
      simp only [Option.getD_some, if_neg (fun hh : tx.fromA = a => hfa hh.symm),
        if_pos rfl, if_true]
      ring
  · rw [mGet_mSet_ne _ _ _ _ hta]
    by_cases hfa : a = tx.fromA
    · rw [← hfa, mGet_mSet_self]
      simp only [Option.getD_some, if_pos rfl, if_true,
        if_neg (fun hh : tx.toA = a => hta hh.symm)]
      ring
    · rw [mGet_mSet_ne _ _ _ _ hfa]
      simp only [if_neg (fun hh : tx.fromA = a => hfa hh.symm),
        if_neg (fun hh : tx.toA = a => hta hh.symm)]
      ring

theorem foldl_gStep_bal_get {α : Type} [DecidableEq α] (l : List (Txg α))
    (st : GState α) (a : α) :
    (mGet (l.foldl gStep st).bal a).getD 0 = (mGet st.bal a).getD 0 + balContrib a l := by
  induction l generalizing st with
  | nil => simp [balContrib]
  | cons tx t ih =>
    rw [List.foldl_cons, ih, gStep_bal_get]
    unfold balContrib
    simp only [List.map_cons, List.sum_cons]
    ring

theorem balance_buildMaps {α : Type} [DecidableEq α] (l : List (Txg α)) (a : α) :
    (mGet (buildMaps l).bal a).getD 0 = balContrib a l := by
  unfold buildMaps
  rw [foldl_gStep_bal_get]
  simp [mGet]

/-! Claim C3: token filter semantics of the empty selection. -/

/-- C3 counterexample: with a non-empty available-token set (["X"]) and an
empty selection, the token filter does not exclude every transfer: the
transfer carrying token X is retained.  The claimed behaviour (empty
selection excludes everything in that branch) is false on the code. -/
theorem c3_counterexample :
    availableTokensOf [tokTx] TxType.native = ["X"] ∧
    filterTransfers [tokTx] TxType.native none none 0
      (availableTokensOf [tokTx] TxType.native) ∅ = [tokTx] := by decide

/-- C3 amended: when the available-token set is non-empty and the selection
is empty, the token filter falls back to the full available-token set; the
branch is equivalent to selecting all available tokens, and it retains
exactly the transfers whose token field is present and available (so only
token-less or unavailable-token transfers are excluded). -/
theorem c3_empty_selection_fallback (avail : List String) (sel : Finset String)
    (l : List Transfer) (hsel : sel = ∅) (hav : avail ≠ []) :
    applyTokenFilter avail sel l =
      l.filter (fun t => match t.token with
        | some tok => decide (tok ∈ avail.toFinset)
        | none => false) ∧
    applyTokenFilter avail sel l = applyTokenFilter avail avail.toFinset l := by
  subst hsel
  have hlen : avail.length > 0 := List.length_pos.mpr hav
  have hfin : avail.toFinset ≠ ∅ := by
    intro hh
    rcases avail with _ | ⟨a, t⟩
    · exact hav rfl
    · have : a ∈ (a :: t).toFinset := by simp
      rw [hh] at this
      exact absurd this (Finset.not_mem_empty a)
  constructor
  · unfold applyTokenFilter
    rw [if_pos hlen]
    simp
  · unfold applyTokenFilter
    rw [if_pos hlen, if_pos hlen]
    simp [hfin]

/-- C3 witness: the amended fallback at the concrete input of the
counterexample. -/
theorem c3_witness :
    applyTokenFilter ["X"] ∅ [tokTx] =
      [tokTx].filter (fun t => match t.token with
        | some tok => decide (tok ∈ (["X"] : List String).toFinset)
        | none => false) ∧
    applyTokenFilter ["X"] ∅ [tokTx] = applyTokenFilter ["X"] (["X"] : List String).toFinset [tokTx] :=
  c3_empty_selection_fallback ["X"] ∅ [tokTx] rfl (by decide)

/-! Claim C2: address identity in graph construction. -/

/-- C2 counterexample: a transfer set containing the same address in two
letter cases ("A" and "a") yields two distinct nodes with separate
balances and separate adjacency, not one merged node: graph construction
is case-sensitive. -/
theorem c2_counterexample :
    validNodesOf (buildMaps [mkNative "A" "b" 10, mkNative "a" "c" 7]) =
      ["A", "b", "a", "c"] ∧
    adjOf (buildMaps [mkNative "A" "b" 10, mkNative "a" "c" 7]) "A" = ["b"] ∧
    adjOf (buildMaps [mkNative "A" "b" 10, mkNative "a" "c" 7]) "a" = ["c"] ∧
    (mGet (buildMaps [mkNative "A" "b" 10, mkNative "a" "c" 7]).bal "A").getD 0 = 10 ∧
    (mGet (buildMaps [mkNative "A" "b" 10, mkNative "a" "c" 7]).bal "a").getD 0 = 7 := by
  refine ⟨by decide, by decide, by decide, ?_, ?_⟩
  · rw [balance_buildMaps]
    simp [balContrib, mkNative]
  · rw [balance_buildMaps]
    simp [balContrib, mkNative]

/-- C2 amended: graph construction compares addresses case-sensitively
(exact string identity): an address is a node exactly when it appears
verbatim as an endpoint of a retained transfer, its balance is the sum of
the values of transfers matching it verbatim, and its adjacency holds
exactly the verbatim counterparties; case variants are distinct nodes.
Only base-address seeding in the hop labeler (see SeedP in the C1
theorem) and label lookup lowercase before comparing. -/
theorem c2_case_sensitive_identity (l : List Transfer) (a b : String) :
    (a ∈ validNodesOf (buildMaps l) ↔ ∃ tx ∈ l, tx.fromA = a ∨ tx.toA = a) ∧
    (mGet (buildMaps l).bal a).getD 0 = balContrib a l ∧
    (b ∈ adjOf (buildMaps l) a ↔
      ∃ tx ∈ l, (tx.fromA = a ∧ tx.toA = b) ∨ (tx.toA = a ∧ tx.fromA = b)) :=
  ⟨validNodesOf_mem l a, balance_buildMaps l a, adjOf_buildMaps_mem l a b⟩

/-! Claim C9: malformed transfer records in graph construction. -/

/-- C9: a record whose from field is missing is not skipped: it produces a
node keyed by the missing value, accrues the transfer value as that node's
balance, and yields a link from the missing key (the construction does not
crash, being total, but the record contributes a node, a balance and a
link, contrary to the defensive-skip claim). -/
theorem c9_malformed_not_skipped :
    none ∈ validNodesOf (buildMaps [badTx]) ∧
    (mGet (buildMaps [badTx]).bal none).getD 0 = 5 ∧
    (preFilteredLinks (buildMaps [badTx])).map (fun l => (l.source, l.target)) =
      [(none, some "b")] := by
  refine ⟨by decide, ?_, by decide⟩
  rw [balance_buildMaps]
  simp [balContrib, badTx]

/-! Claim C5: total provider outage. -/

/-- C5: when every per-address fetch rejects (total outage), the crawl is
indistinguishable from a provider that answers with empty histories: it
terminates with the ordinary no-new-data outcome and even commits the
target as traced, instead of surfacing a terminal crawl failure
(Promise.allSettled swallows every rejection, so the failure path of the
catch block is never reached by fetch failures). -/
theorem c5_total_outage_no_failure :
    (handleTraceExecution ∅ ["a"] cfgBoth1 (fun _ => none) true).outcome =
      Outcome.noNewData ∧
    (handleTraceExecution ∅ ["a"] cfgBoth1 (fun _ => none) true) =
      (handleTraceExecution ∅ ["a"] cfgBoth1 (fun _ => some []) true) ∧
    (handleTraceExecution ∅ ["a"] cfgBoth1 (fun _ => none) true).traced = {"a"} ∧
    (handleTraceExecution ∅ ["a"] cfgBoth1 (fun _ => none) true).outcome ≠
      Outcome.errorOut := by decide

/-! Counterexamples for claims C6, C7 and C4. -/

/-- C6 counterexample: a hop-budget-1 crawl from target a where the
provider returns the single transfer a to b (direction both) collects the
transfer and puts b in the next frontier, but tracedAddresses afterwards
is exactly the set containing a: it does not contain b, contrary to the
claim that both a and b are traced. -/
theorem c6_counterexample :
    (handleTraceExecution ∅ ["a"] cfgBoth1 provAB true).collected =
      [mkNative "a" "b" 1] ∧
    (handleTraceExecution ∅ ["a"] cfgBoth1 provAB true).finalFrontier = ["b"] ∧
    (handleTraceExecution ∅ ["a"] cfgBoth1 provAB true).traced = {"a"} ∧
    "b" ∉ (handleTraceExecution ∅ ["a"] cfgBoth1 provAB true).traced := by decide

/-- C7 counterexample: with hop budget 2 from target a, where a's history
reveals b and c and b's history reveals c again, the address c appears in
the discovered-neighbour frontier of both layers (it was discovered in
layer 1, and is merged into the session-visited set only after being
queried, so layer 2 rediscovers it): the concatenation of the layers'
neighbour sets has a duplicate. -/
theorem c7_counterexample :
    (handleTraceExecution ∅ ["a"] cfgBoth2 provDup true).layers =
      [["b", "c"], ["c"]] ∧
    ¬ (List.flatten (handleTraceExecution ∅ ["a"] cfgBoth2 provDup true).layers).Nodup := by
  decide

/-- C4 counterexample: two runs of graph construction on the identical
transfer list and identical filter parameters produce different per-node
activityScore attributes when the ambient Math.random() stream differs, so
the output is not fully determined by the transfer list and the filter
parameters. -/
theorem c4_counterexample :
    ((buildViz [mkNative "a" "b" 5] TxType.native none none 0 ∅ [] false true []
        (fun _ => 0)).nodes.map (fun n => n.activityScore)) ≠
    ((buildViz [mkNative "a" "b" 5] TxType.native none none 0 ∅ [] false true []
        (fun _ => 1)).nodes.map (fun n => n.activityScore)) := by decide

/-! Crawler lemmas. -/

theorem foldl_preserve {β γ : Type} (P : γ → Prop) (f : γ → β → γ) (l : List β)
    (init : γ) (hstep : ∀ s b, P s → P (f s b)) (h0 : P init) : P (l.foldl f init) := by
  induction l generalizing init with
  | nil => exact h0
  | cons b t ih => exact ih _ (hstep _ _ h0)

theorem traceTxStep_snd (cfg : TraceCfg) (address : String) (vis : Finset String)
    (s : List Transfer × List String) (tx : Transfer) :
    (traceTxStep cfg address vis s tx).2 = s.2 ∨
    ∃ nl, nl ∉ vis ∧ (traceTxStep cfg address vis s tx).2 = jsSetAdd s.2 nl := by
  unfold traceTxStep
  by_cases h1 : tx.txType = TxType.native ∧ cfg.includeNative = false
  · rw [if_pos h1]
    exact Or.inl rfl
  rw [if_neg h1]
  by_cases h2 : tx.txType = TxType.erc20 ∧ cfg.includeERC20 = false
  · rw [if_pos h2]
    exact Or.inl rfl
  rw [if_neg h2]
  dsimp only
  by_cases h3 : (dirNeighbor cfg address tx).1 = true ∧ (dirNeighbor cfg address tx).2 ≠ ""
  · rw [if_pos h3]
    dsimp only
    by_cases h4 : strLower (dirNeighbor cfg address tx).2 ∈ vis
    · rw [if_pos h4]
      exact Or.inl rfl
    · rw [if_neg h4]
      exact Or.inr ⟨_, h4, rfl⟩
  · rw [if_neg h3]
    exact Or.inl rfl

theorem traceLayer_frontier (cfg : TraceCfg) (provider : String → Option (List Transfer))
    (vis : Finset String) (frontier : List String) :
    (∀ x ∈ (traceLayer cfg provider vis frontier).2, x ∉ vis) ∧
    (traceLayer cfg provider vis frontier).2.Nodup := by
  unfold traceLayer
  have h0 : (∀ x ∈ (([], []) : List Transfer × List String).2, x ∉ vis) ∧
      (([], []) : List Transfer × List String).2.Nodup := by simp
  refine foldl_preserve
    (fun (s : List Transfer × List String) => (∀ x ∈ s.2, x ∉ vis) ∧ s.2.Nodup)
    (traceAddr cfg provider vis) frontier ([], []) ?_ h0
  intro s a hs
  unfold traceAddr
  cases provider a with
  | none => exact hs
  | some txs =>
    refine foldl_preserve
      (fun (s : List Transfer × List String) => (∀ x ∈ s.2, x ∉ vis) ∧ s.2.Nodup)
      (traceTxStep cfg a vis) txs s ?_ hs
    intro s' tx hs'
    rcases traceTxStep_snd cfg a vis s' tx with heq | ⟨nl, hnl, heq⟩
    · rw [heq]
      exact hs'
    · rw [heq]
      constructor
      · intro x hx
        rcases (jsSetAdd_mem s'.2 nl x).mp hx with hx' | rfl
        · exact hs'.1 x hx'
        · exact hnl
      · exact jsSetAdd_nodup _ _ hs'.2

theorem runLayers_layers_prop (cfg : TraceCfg) (provider : String → Option (List Transfer)) :
    ∀ (n : ℕ) (frontier : List String) (vis vis0 : Finset String), vis0 ⊆ vis →
      ∀ L ∈ (runLayers cfg provider n frontier vis).layers,
        L.Nodup ∧ ∀ x ∈ L, x ∉ vis0 := by
  intro n
  induction n with
  | zero =>
    intro frontier vis vis0 hsub L hL
    simp [runLayers] at hL
  | succ n ih =>
    intro frontier vis vis0 hsub L hL
    rw [runLayers] at hL
    by_cases hf : frontier = []
    · rw [if_pos hf] at hL
      simp at hL
    · rw [if_neg hf] at hL
      dsimp only at hL
      rcases List.mem_cons.mp hL with rfl | hL'
      · refine ⟨(traceLayer_frontier cfg provider vis frontier).2, fun x hx hx0 =>
          (traceLayer_frontier cfg provider vis frontier).1 x hx (hsub hx0)⟩
      · exact ih _ _ vis0 (hsub.trans Finset.subset_union_left) L hL'

theorem runLayers_visited_lower (cfg : TraceCfg) (provider : String → Option (List Transfer)) :
    ∀ (n : ℕ) (frontier : List String) (vis : Finset String),
      ∀ x ∈ (runLayers cfg provider n frontier vis).visited,
        x ∈ vis ∨ ∃ b, x = strLower b := by
  intro n
  induction n with
  | zero =>
    intro frontier vis x hx
    exact Or.inl hx
  | succ n ih =>
    intro frontier vis x hx
    rw [runLayers] at hx
    by_cases hf : frontier = []
    · rw [if_pos hf] at hx
      exact Or.inl hx
    · rw [if_neg hf] at hx
      dsimp only at hx
      rcases ih _ _ x hx with hx' | hb
      · rcases Finset.mem_union.mp hx' with hx'' | hx''
        · exact Or.inl hx''
        · obtain ⟨b, _, rfl⟩ := List.mem_map.mp (List.mem_toFinset.mp hx'')
          exact Or.inr ⟨b, rfl⟩
      · exact Or.inr hb

/-! Claim C10: tracedAddresses only grows; errors leave it unchanged. -/

/-- C10: every crawl invocation only extends tracedAddresses (the prior
set is contained in the new one in every terminal state), every element
ever added is a lowercased address, and a crawl that ends in the thrown
error path (ingestion failure caught at line 522) leaves tracedAddresses
exactly unchanged: the commit happens only on the success and no-new-data
paths. -/
theorem c10_traced_growth (traced : Finset String) (targets : List String)
    (cfg : TraceCfg) (provider : String → Option (List Transfer)) (ingestOk : Bool) :
    traced ⊆ (handleTraceExecution traced targets cfg provider ingestOk).traced ∧
    ((handleTraceExecution traced targets cfg provider ingestOk).outcome = Outcome.errorOut →
      (handleTraceExecution traced targets cfg provider ingestOk).traced = traced) ∧
    (∀ a ∈ (handleTraceExecution traced targets cfg provider ingestOk).traced,
      a ∈ traced ∨ ∃ b, a = strLower b) := by
  unfold handleTraceExecution
  by_cases ht : targets = []
  · rw [if_pos ht]
    exact ⟨Finset.Subset.refl _, fun _ => rfl, fun a ha => Or.inl ha⟩
  · rw [if_neg ht]
    dsimp only
    by_cases hc : (runLayers cfg provider cfg.hops targets
        ((traced.image strLower) ∪ (targets.map strLower).toFinset)).collected ≠ []
    · rw [if_pos hc]
      cases ingestOk with
      | true =>
        rw [if_pos rfl]
        dsimp only
        refine ⟨Finset.subset_union_left, fun h => by simp at h, ?_⟩
        intro a ha
        rcases Finset.mem_union.mp ha with ha' | ha'
        · exact Or.inl ha'
        · rcases runLayers_visited_lower cfg provider _ _ _ a ha' with hv | hb
          · rcases Finset.mem_union.mp hv with hv' | hv'
            · obtain ⟨b, _, rfl⟩ := Finset.mem_image.mp hv'
              exact Or.inr ⟨b, rfl⟩
            · obtain ⟨b, _, rfl⟩ := List.mem_map.mp (List.mem_toFinset.mp hv')
              exact Or.inr ⟨b, rfl⟩
          · exact Or.inr hb
      | false =>
        rw [if_neg (by simp)]
        dsimp only
        exact ⟨Finset.Subset.refl _, fun _ => rfl, fun a ha => Or.inl ha⟩
    · rw [if_neg hc]
      dsimp only
      refine ⟨Finset.subset_union_left, fun h => by simp at h, ?_⟩
      intro a ha
      rcases Finset.mem_union.mp ha with ha' | ha'
      · exact Or.inl ha'
      · obtain ⟨b, _, rfl⟩ := List.mem_map.mp (List.mem_toFinset.mp ha')
        exact Or.inr ⟨b, rfl⟩

/-- C10 witness: at a concrete input whose ingestion throws, the outcome
is the error outcome and tracedAddresses is unchanged (the implication of
the theorem is discharged at this input). -/
theorem c10_witness :
    (handleTraceExecution ∅ ["a"] cfgBoth1 provAB false).traced = ∅ :=
  (c10_traced_growth ∅ ["a"] cfgBoth1 provAB false).2.1 (by decide)

/-! Claim C7: deduplication across crawl layers. -/

/-- C7 amended (the guarantee the code actually provides): within one
crawl, every layer's discovered-neighbour frontier is duplicate-free and
never contains a previously traced address or a target; however an address
discovered (but not yet queried) in one layer can be rediscovered in the
next layer, because sessionVisited only absorbs addresses once they have
been queried (line 493), so the same address can appear in two consecutive
layers' neighbour sets (see the counterexample). -/
theorem c7_layer_dedup (traced : Finset String) (targets : List String)
    (cfg : TraceCfg) (provider : String → Option (List Transfer)) (ingestOk : Bool) :
    ∀ L ∈ (handleTraceExecution traced targets cfg provider ingestOk).layers,
      L.Nodup ∧ ∀ x ∈ L, x ∉ Finset.image strLower traced ∧ x ∉ targets.map strLower := by
  unfold handleTraceExecution
  by_cases ht : targets = []
  · rw [if_pos ht]
    intro L hL
    simp at hL
  · rw [if_neg ht]
    dsimp only
    have key : ∀ L ∈ (runLayers cfg provider cfg.hops targets
        ((traced.image strLower) ∪ (targets.map strLower).toFinset)).layers,
        L.Nodup ∧ ∀ x ∈ L, x ∉ Finset.image strLower traced ∧ x ∉ targets.map strLower := by
      intro L hL
      have h := runLayers_layers_prop cfg provider cfg.hops targets
        ((traced.image strLower) ∪ (targets.map strLower).toFinset)
        ((traced.image strLower) ∪ (targets.map strLower).toFinset)
        (Finset.Subset.refl _) L hL
      refine ⟨h.1, fun x hx => ?_⟩
      have hnot := h.2 x hx
      rw [Finset.mem_union, not_or] at hnot
      exact ⟨hnot.1, fun hm => hnot.2 (List.mem_toFinset.mpr hm)⟩
    by_cases hc : (runLayers cfg provider cfg.hops targets
        ((traced.image strLower) ∪ (targets.map strLower).toFinset)).collected ≠ []
    · rw [if_pos hc]
      cases ingestOk with
      | true =>
        rw [if_pos rfl]
        exact key
      | false =>
        rw [if_neg (by simp)]
        exact key
    · rw [if_neg hc]
      exact key

/-- C7 witness: the amended guarantee applied to the concrete rediscovery
scenario of the counterexample (layer ["b", "c"], address "c"). -/
theorem c7_witness :
    (["b", "c"] : List String).Nodup ∧
    ("c" ∉ Finset.image strLower (∅ : Finset String) ∧
      "c" ∉ (["a"] : List String).map strLower) := by
  have h := c7_layer_dedup ∅ ["a"] cfgBoth2 provDup true ["b", "c"] (by decide)
  exact ⟨h.1, h.2 "c" (by decide)⟩

/-! Claim C6: single-hop crawl frontier correctness. -/

/-- C6 amended: for a crawl with hop budget 1 from the single target A
where the provider returns the transfer A to B (direction both, transfer
passing the type filter, B truthy and not previously seen), the transfer
is collected, the lowercased B enters the next (unused) frontier, and
tracedAddresses afterwards contains the lowercased A; but B is only
discovered, not queried, so tracedAddresses does not contain B. -/
theorem c6_single_hop_crawl (A B : String) (tx : Transfer) (traced : Finset String)
    (cfg : TraceCfg) (provider : String → Option (List Transfer))
    (hhops : cfg.hops = 1) (hdir : cfg.direction = TraceDir.both)
    (htyN : ¬(tx.txType = TxType.native ∧ cfg.includeNative = false))
    (htyE : ¬(tx.txType = TxType.erc20 ∧ cfg.includeERC20 = false))
    (hprovA : provider A = some [tx])
    (hfrom : tx.fromA = A) (hto : tx.toA = B) (hBne : B ≠ "")
    (hBtr : strLower B ∉ Finset.image strLower traced)
    (hBtrraw : strLower B ∉ traced)
    (hBA : strLower B ≠ strLower A) :
    (handleTraceExecution traced [A] cfg provider true).collected = [tx] ∧
    strLower B ∈ (handleTraceExecution traced [A] cfg provider true).finalFrontier ∧
    strLower A ∈ (handleTraceExecution traced [A] cfg provider true).traced ∧
    strLower B ∉ (handleTraceExecution traced [A] cfg provider true).traced := by
  set vis0 : Finset String :=
    (traced.image strLower) ∪ (([A] : List String).map strLower).toFinset with hvis0
  have hnl : strLower B ∉ vis0 := by
    rw [hvis0, Finset.mem_union, not_or]
    refine ⟨hBtr, fun hm => hBA ?_⟩
    simpa using List.mem_toFinset.mp hm
  have hstep : traceTxStep cfg A vis0 ([], []) tx = ([tx], [strLower B]) := by
    unfold traceTxStep
    rw [if_neg htyN, if_neg htyE]
    dsimp only
    have hdirn : dirNeighbor cfg A tx = (true, B) := by
      unfold dirNeighbor
      rw [hdir]
      dsimp only
      rw [if_pos (by rw [hfrom])]
      rw [hto]
    rw [hdirn]
    dsimp only
    rw [if_pos ⟨rfl, hBne⟩, if_neg hnl]
    simp [jsSetAdd]
  have hlayer : traceLayer cfg provider vis0 [A] = ([tx], [strLower B]) := by
    unfold traceLayer
    rw [List.foldl_cons, List.foldl_nil]
    unfold traceAddr
    rw [hprovA]
    dsimp only
    rw [List.foldl_cons, List.foldl_nil]
    exact hstep
  have hrun : runLayers cfg provider cfg.hops [A] vis0 =
      { collected := [tx], layers := [[strLower B]], finalFrontier := [strLower B],
        visited := vis0 ∪ (([A] : List String).map strLower).toFinset } := by
    rw [hhops]
    rw [runLayers]
    rw [if_neg (by simp)]
    dsimp only
    rw [hlayer]
    dsimp only
    rw [runLayers]
    dsimp only
    simp
  have hout : handleTraceExecution traced [A] cfg provider true =
      { outcome := Outcome.success,
        traced := traced ∪ (vis0 ∪ (([A] : List String).map strLower).toFinset),
        collected := [tx], layers := [[strLower B]], finalFrontier := [strLower B] } := by
    unfold handleTraceExecution
    rw [if_neg (by simp)]
    dsimp only
    rw [← hvis0, hrun]
    dsimp only
    rw [if_pos (by simp)]
    rw [if_pos rfl]
  rw [hout]
  refine ⟨rfl, by simp, ?_, ?_⟩
  · dsimp only
    rw [Finset.mem_union]
    refine Or.inr ?_
    rw [Finset.mem_union]
    refine Or.inr ?_
    simp
  · dsimp only
    rw [Finset.mem_union, not_or, Finset.mem_union, not_or]
    refine ⟨hBtrraw, hnl, ?_⟩
    simp [hBA]

/-- C6 witness: the amended single-hop guarantee at the concrete input of
the counterexample (target a, provider returns a to b). -/
theorem c6_witness :
    (handleTraceExecution ∅ ["a"] cfgBoth1 provAB true).collected = [mkNative "a" "b" 1] ∧
    strLower "b" ∈ (handleTraceExecution ∅ ["a"] cfgBoth1 provAB true).finalFrontier ∧
    strLower "a" ∈ (handleTraceExecution ∅ ["a"] cfgBoth1 provAB true).traced ∧
    strLower "b" ∉ (handleTraceExecution ∅ ["a"] cfgBoth1 provAB true).traced :=
  c6_single_hop_crawl "a" "b" (mkNative "a" "b" 1) ∅ cfgBoth1 provAB rfl rfl
    (by decide) (by decide) (by decide) rfl rfl (by decide) (by decide) (by decide)
    (by decide)

/-! Claim C8: the radius scale. -/

/-- C8 counterexample: on an empty node set the computed scale domain is
not the claimed default [0.001, 1]: Math.min of an empty spread is plus
infinity (truthy, so the || 0.001 default does not apply) and Math.max is
minus infinity, so the domain is the infinite pair, not [0.001, 1]. -/
theorem c8_counterexample :
    scaleDomainLo [] = ⊤ ∧ scaleDomainHi [] = ⊥ ∧
    scaleDomainLo [] ≠ ((1 / 1000 : ℚ) : WithTop ℚ) ∧
    scaleDomainHi [] ≠ ((1 : ℚ) : WithBot ℚ) := by decide

/-- C8 amended: the radius scale is a clamped square-root scale; for every
valid non-negative domain [mn, mx] it is monotone (b1 < b2 implies
radius b1 at most radius b2) and its value always lies within the output
range [20, 80]; the 0.001 (resp. 1) domain default applies exactly when
the computed minimum (resp. maximum) balance equals 0, not when the node
set is empty. -/
theorem c8_sqrt_scale (mn mx : ℚ) (h0 : 0 ≤ mn) (hmn : mn ≤ mx) :
    (∀ b1 b2 : ℚ, b1 < b2 → rScale mn mx b1 ≤ rScale mn mx b2) ∧
    (∀ x : ℚ, 20 ≤ rScale mn mx x ∧ rScale mn mx x ≤ 80) ∧
    (∀ bals : List ℚ,
      (listMinT bals = ((0 : ℚ) : WithTop ℚ) →
        scaleDomainLo bals = ((1 / 1000 : ℚ) : WithTop ℚ)) ∧
      (listMinT bals ≠ ((0 : ℚ) : WithTop ℚ) → scaleDomainLo bals = listMinT bals) ∧
      (listMaxB bals = ((0 : ℚ) : WithBot ℚ) →
        scaleDomainHi bals = ((1 : ℚ) : WithBot ℚ)) ∧
      (listMaxB bals ≠ ((0 : ℚ) : WithBot ℚ) → scaleDomainHi bals = listMaxB bals)) := by
  have hmnr : ((mn : ℚ) : ℝ) ≤ ((mx : ℚ) : ℝ) := by exact_mod_cast hmn
  have hab : Real.sqrt ((mn : ℚ) : ℝ) ≤ Real.sqrt ((mx : ℚ) : ℝ) := Real.sqrt_le_sqrt hmnr
  have hmax : max ((mn : ℚ) : ℝ) ((mx : ℚ) : ℝ) = ((mx : ℚ) : ℝ) := max_eq_right hmnr
  have hmin : min ((mn : ℚ) : ℝ) ((mx : ℚ) : ℝ) = ((mn : ℚ) : ℝ) := min_eq_left hmnr
  have hxc_lb : ∀ x : ℚ, ((mn : ℚ) : ℝ) ≤ max (min ((x : ℚ) : ℝ) ((mx : ℚ) : ℝ)) ((mn : ℚ) : ℝ) :=
    fun x => le_max_right _ _
  have hxc_ub : ∀ x : ℚ, max (min ((x : ℚ) : ℝ) ((mx : ℚ) : ℝ)) ((mn : ℚ) : ℝ) ≤ ((mx : ℚ) : ℝ) :=
    fun x => max_le (min_le_right _ _) hmnr
  have hsq_lb : ∀ x : ℚ,
      Real.sqrt ((mn : ℚ) : ℝ) ≤ Real.sqrt (max (min ((x : ℚ) : ℝ) ((mx : ℚ) : ℝ)) ((mn : ℚ) : ℝ)) :=
    fun x => Real.sqrt_le_sqrt (hxc_lb x)
  have hsq_ub : ∀ x : ℚ,
      Real.sqrt (max (min ((x : ℚ) : ℝ) ((mx : ℚ) : ℝ)) ((mn : ℚ) : ℝ)) ≤ Real.sqrt ((mx : ℚ) : ℝ) :=
    fun x => Real.sqrt_le_sqrt (hxc_ub x)
  have hval : ∀ x : ℚ, rScale mn mx x =
      if Real.sqrt ((mx : ℚ) : ℝ) - Real.sqrt ((mn : ℚ) : ℝ) = 0 then 20 + 60 * (1 / 2)
      else 20 + 60 * ((Real.sqrt (max (min ((x : ℚ) : ℝ) ((mx : ℚ) : ℝ)) ((mn : ℚ) : ℝ)) -
        Real.sqrt ((mn : ℚ) : ℝ)) / (Real.sqrt ((mx : ℚ) : ℝ) - Real.sqrt ((mn : ℚ) : ℝ))) := by
    intro x
    unfold rScale
    rw [hmax, hmin]
  refine ⟨?_, ?_, ?_⟩
  · intro b1 b2 hb
    rw [hval b1, hval b2]
    split_ifs with hba
    · exact le_refl _
    · have hpos : 0 < Real.sqrt ((mx : ℚ) : ℝ) - Real.sqrt ((mn : ℚ) : ℝ) :=
        lt_of_le_of_ne (by linarith) (Ne.symm hba)
      have hb12 : ((b1 : ℚ) : ℝ) ≤ ((b2 : ℚ) : ℝ) := by exact_mod_cast le_of_lt hb
      have hx12 : max (min ((b1 : ℚ) : ℝ) ((mx : ℚ) : ℝ)) ((mn : ℚ) : ℝ) ≤
          max (min ((b2 : ℚ) : ℝ) ((mx : ℚ) : ℝ)) ((mn : ℚ) : ℝ) :=
        max_le_max (min_le_min hb12 le_rfl) le_rfl
      have hs := Real.sqrt_le_sqrt hx12
      have hdiv : (Real.sqrt (max (min ((b1 : ℚ) : ℝ) ((mx : ℚ) : ℝ)) ((mn : ℚ) : ℝ)) -
            Real.sqrt ((mn : ℚ) : ℝ)) / (Real.sqrt ((mx : ℚ) : ℝ) - Real.sqrt ((mn : ℚ) : ℝ)) ≤
          (Real.sqrt (max (min ((b2 : ℚ) : ℝ) ((mx : ℚ) : ℝ)) ((mn : ℚ) : ℝ)) -
            Real.sqrt ((mn : ℚ) : ℝ)) / (Real.sqrt ((mx : ℚ) : ℝ) - Real.sqrt ((mn : ℚ) : ℝ)) := by
        apply div_le_div_of_nonneg_right ?_ (le_of_lt hpos)
        · linarith
      linarith
  · intro x
    rw [hval x]
    split_ifs with hba
    · constructor <;> norm_num
    · have hpos : 0 < Real.sqrt ((mx : ℚ) : ℝ) - Real.sqrt ((mn : ℚ) : ℝ) :=
        lt_of_le_of_ne (by linarith) (Ne.symm hba)
      have ht0 : 0 ≤ (Real.sqrt (max (min ((x : ℚ) : ℝ) ((mx : ℚ) : ℝ)) ((mn : ℚ) : ℝ)) -
          Real.sqrt ((mn : ℚ) : ℝ)) / (Real.sqrt ((mx : ℚ) : ℝ) - Real.sqrt ((mn : ℚ) : ℝ)) :=
        div_nonneg (by linarith [hsq_lb x]) (le_of_lt hpos)
      have ht1 : (Real.sqrt (max (min ((x : ℚ) : ℝ) ((mx : ℚ) : ℝ)) ((mn : ℚ) : ℝ)) -
          Real.sqrt ((mn : ℚ) : ℝ)) / (Real.sqrt ((mx : ℚ) : ℝ) - Real.sqrt ((mn : ℚ) : ℝ)) ≤ 1 :=
        (div_le_one hpos).mpr (by linarith [hsq_ub x])
      constructor <;> linarith
  · intro bals
    refine ⟨?_, ?_, ?_, ?_⟩
    · intro h
      unfold scaleDomainLo jsOrT
      rw [if_pos h]
    · intro h
      unfold scaleDomainLo jsOrT
      rw [if_neg h]
    · intro h
      unfold scaleDomainHi jsOrB
      rw [if_pos h]
    · intro h
      unfold scaleDomainHi jsOrB
      rw [if_neg h]

/-- C8 witness: the amended guarantee at the concrete domain [0, 1]
(monotone between 0 and 1, value at 5 clamped into [20, 80], and the
0.001 default firing at a zero minimum balance). -/
theorem c8_witness :
    (rScale 0 1 0 ≤ rScale 0 1 1) ∧ (20 ≤ rScale 0 1 5 ∧ rScale 0 1 5 ≤ 80) ∧
    scaleDomainLo [0] = ((1 / 1000 : ℚ) : WithTop ℚ) := by
  refine ⟨(c8_sqrt_scale 0 1 le_rfl (by norm_num)).1 0 1 (by norm_num),
    (c8_sqrt_scale 0 1 le_rfl (by norm_num)).2.1 5,
    ((c8_sqrt_scale 0 1 le_rfl (by norm_num)).2.2 [0]).1 ?_⟩
  simp [listMinT]

/-! Claim C4: determinism of graph construction. -/

theorem buildNodes_core_indep (st : GState String) (nodeSet : List String)
    (counts : List (String × ℕ)) (hops : String → Option ℕ) (labels : List LabelRec)
    (lightTheme : Bool) (r1 r2 : ℕ → ℚ) :
    ∀ (par : List (String × String)) (rc : List (String × ColorV)) (cnt : ℚ)
      (idx : ℕ) (acc1 acc2 : List NodeV),
      acc1.map dropActivity = acc2.map dropActivity →
      ((nodeSet.foldl (ncStep st counts hops labels lightTheme r1)
          { par := par, rootColors := rc, counter := cnt, idx := idx, acc := acc1 }).acc).map
        dropActivity =
      ((nodeSet.foldl (ncStep st counts hops labels lightTheme r2)
          { par := par, rootColors := rc, counter := cnt, idx := idx, acc := acc2 }).acc).map
        dropActivity := by
  induction nodeSet with
  | nil =>
    intro par rc cnt idx acc1 acc2 h
    simpa using h
  | cons id t ih =>
    intro par rc cnt idx acc1 acc2 h
    rw [List.foldl_cons, List.foldl_cons]
    show ((t.foldl (ncStep st counts hops labels lightTheme r1)
        (ncStep st counts hops labels lightTheme r1
          { par := par, rootColors := rc, counter := cnt, idx := idx, acc := acc1 } id)).acc).map
      dropActivity = _
    unfold ncStep
    dsimp only
    apply ih
    rw [List.map_append, List.map_append, h]
    rfl

theorem relatedFilter_core (adjF : String → List String) (hops : String → Option ℕ) :
    ∀ (l1 l2 : List NodeV), l1.map dropActivity = l2.map dropActivity →
      (relatedFilter adjF hops l1).map dropActivity =
      (relatedFilter adjF hops l2).map dropActivity := by
  intro l1
  induction l1 with
  | nil =>
    intro l2 h
    cases l2 with
    | nil => rfl
    | cons n2 t2 => simp at h
  | cons n1 t1 ih =>
    intro l2 h
    cases l2 with
    | nil => simp at h
    | cons n2 t2 =>
      rw [List.map_cons, List.map_cons] at h
      have hh : dropActivity n1 = dropActivity n2 := (List.cons.injEq _ _ _ _ ▸ h).1
      have ht : t1.map dropActivity = t2.map dropActivity := (List.cons.injEq _ _ _ _ ▸ h).2
      have hid : n1.id = n2.id := congrArg NodeCore.id hh
      have hhop : n1.hop = n2.hop := congrArg NodeCore.hop hh
      unfold relatedFilter at ih ⊢
      rw [List.filter_cons, List.filter_cons]
      rw [show relatedPred adjF hops n1.hop n1.id = relatedPred adjF hops n2.hop n2.id from by
        rw [hid, hhop]]
      by_cases hp : relatedPred adjF hops n2.hop n2.id = true
      · rw [if_pos hp, if_pos hp, List.map_cons, List.map_cons, hh, ih t2 ht]
      · rw [if_neg hp, if_neg hp, ih t2 ht]

theorem buildNodes_core (st : GState String) (nodeSet : List String)
    (par0 : List (String × String)) (counts : List (String × ℕ))
    (hops : String → Option ℕ) (labels : List LabelRec) (lightTheme : Bool)
    (r1 r2 : ℕ → ℚ) :
    (buildNodes st nodeSet par0 counts hops labels lightTheme r1).map dropActivity =
    (buildNodes st nodeSet par0 counts hops labels lightTheme r2).map dropActivity := by
  unfold buildNodes
  exact buildNodes_core_indep st nodeSet counts hops labels lightTheme r1 r2 par0 [] 0 0 [] [] rfl

/-- C4 amended: graph construction is deterministic and side-effect-free
in every output except the activityScore attribute, which is sampled from
Math.random() on every rebuild: for identical transfer list and identical
filter parameters (type, date range, dust threshold, token selection,
base addresses, related-only toggle, theme, labels), two runs under
arbitrary random streams produce identical node sets with identical
per-node attributes apart from activityScore, identical link sets, and
identical radius-scale domains. -/
theorem c4_deterministic_mod_random (data : List Transfer) (activeType : TxType)
    (dstart dend : Option ℤ) (dust : ℚ) (sel : Finset String) (bases : List String)
    (relatedOnly : Bool) (lightTheme : Bool) (labels : List LabelRec) (r1 r2 : ℕ → ℚ) :
    ((buildViz data activeType dstart dend dust sel bases relatedOnly lightTheme
        labels r1).nodes).map dropActivity =
      ((buildViz data activeType dstart dend dust sel bases relatedOnly lightTheme
        labels r2).nodes).map dropActivity ∧
    (buildViz data activeType dstart dend dust sel bases relatedOnly lightTheme
        labels r1).links =
      (buildViz data activeType dstart dend dust sel bases relatedOnly lightTheme
        labels r2).links ∧
    (buildViz data activeType dstart dend dust sel bases relatedOnly lightTheme
        labels r1).domLo =
      (buildViz data activeType dstart dend dust sel bases relatedOnly lightTheme
        labels r2).domLo ∧
    (buildViz data activeType dstart dend dust sel bases relatedOnly lightTheme
        labels r1).domHi =
      (buildViz data activeType dstart dend dust sel bases relatedOnly lightTheme
        labels r2).domHi := by
  unfold buildViz
  dsimp only
  set avail := availableTokensOf data activeType with havail
  set fd := filterTransfers data activeType dstart dend dust avail sel with hfd
  set st := buildMaps fd with hst
  set pls := markedLinks st with hpls
  set hps := hopMapOf st bases with hhps
  set cp := clusterPhase st with hcp
  set cc := countPhase cp.1 cp.2 with hcc
  have hcore : (buildNodes st cp.1 cc.1 cc.2 hps labels lightTheme r1).map dropActivity =
      (buildNodes st cp.1 cc.1 cc.2 hps labels lightTheme r2).map dropActivity :=
    buildNodes_core st cp.1 cc.1 cc.2 hps labels lightTheme r1 r2
  have hfns : ((if relatedOnly then
        relatedFilter (adjOf st) hps (buildNodes st cp.1 cc.1 cc.2 hps labels lightTheme r1)
      else buildNodes st cp.1 cc.1 cc.2 hps labels lightTheme r1)).map dropActivity =
      ((if relatedOnly then
        relatedFilter (adjOf st) hps (buildNodes st cp.1 cc.1 cc.2 hps labels lightTheme r2)
      else buildNodes st cp.1 cc.1 cc.2 hps labels lightTheme r2)).map dropActivity := by
    cases relatedOnly with
    | false => simpa using hcore
    | true => simpa using relatedFilter_core (adjOf st) hps _ _ hcore
  have hids : ((if relatedOnly then
        relatedFilter (adjOf st) hps (buildNodes st cp.1 cc.1 cc.2 hps labels lightTheme r1)
      else buildNodes st cp.1 cc.1 cc.2 hps labels lightTheme r1)).map (fun n => n.id) =
      ((if relatedOnly then
        relatedFilter (adjOf st) hps (buildNodes st cp.1 cc.1 cc.2 hps labels lightTheme r2)
      else buildNodes st cp.1 cc.1 cc.2 hps labels lightTheme r2)).map (fun n => n.id) := by
    have h2 := congrArg (List.map NodeCore.id) hfns
    simpa [List.map_map, dropActivity, Function.comp] using h2
  have hbals : ((if relatedOnly then
        relatedFilter (adjOf st) hps (buildNodes st cp.1 cc.1 cc.2 hps labels lightTheme r1)
      else buildNodes st cp.1 cc.1 cc.2 hps labels lightTheme r1)).map (fun n => n.balance) =
      ((if relatedOnly then
        relatedFilter (adjOf st) hps (buildNodes st cp.1 cc.1 cc.2 hps labels lightTheme r2)
      else buildNodes st cp.1 cc.1 cc.2 hps labels lightTheme r2)).map (fun n => n.balance) := by
    have h2 := congrArg (List.map NodeCore.balance) hfns
    simpa [List.map_map, dropActivity, Function.comp] using h2
  refine ⟨hfns, ?_, ?_, ?_⟩
  · rw [hids]
  · rw [hbals]
  · rw [hbals]

/-! Walk lemmas for the BFS development. -/

theorem walkN_snoc {adjF : String → List String} {a b c : String} {n : ℕ}
    (w : WalkN adjF a b n) (hbc : c ∈ adjF b) : WalkN adjF a c (n + 1) := by
  induction w with
  | nil a => exact WalkN.cons hbc (WalkN.nil c)
  | cons hab w ih => exact WalkN.cons hab (ih hbc)

theorem walkN_of_uwalkN {adjF : String → List String}
    (hsymm : ∀ a b, b ∈ adjF a → a ∈ adjF b) {a c : String} {n : ℕ}
    (w : UWalkN adjF a c n) : WalkN adjF a c n := by
  induction w with
  | nil a => exact WalkN.nil a
  | cons hab w ih =>
    rcases hab with hab | hab
    · exact WalkN.cons hab ih
    · exact WalkN.cons (hsymm _ _ hab) ih

theorem uwalkN_of_walkN {adjF : String → List String} {a c : String} {n : ℕ}
    (w : WalkN adjF a c n) : UWalkN adjF a c n := by
  induction w with
  | nil a => exact UWalkN.nil a
  | cons hab w ih => exact UWalkN.cons (Or.inl hab) ih

theorem walk_in_vis {adjF : String → List String} {vis : Finset String}
    (hclosed : ∀ v ∈ vis, ∀ n ∈ adjF v, n ∈ vis) {s v : String} {j : ℕ}
    (w : WalkN adjF s v j) (hs : s ∈ vis) : v ∈ vis := by
  induction w with
  | nil a => exact hs
  | cons hab w ih => exact ih (hclosed _ hs _ hab)

theorem walk_first_crossing {adjF : String → List String} {vis : Finset String} :
    ∀ {s v : String} {j : ℕ}, WalkN adjF s v j → s ∈ vis → v ∉ vis →
      ∃ x y m, x ∈ vis ∧ y ∉ vis ∧ y ∈ adjF x ∧ WalkN adjF s x m ∧ m + 1 ≤ j := by
  intro s v j w
  induction w with
  | nil a =>
    intro hs hv
    exact absurd hs hv
  | cons hab w ih =>
    intro hs hv
    rename_i a b c n
    by_cases hb : b ∈ vis
    · obtain ⟨x, y, m, hx, hy, hyx, hw, hm⟩ := ih hb hv
      exact ⟨x, y, m + 1, hx, hy, hyx, WalkN.cons hab hw, by omega⟩
    · exact ⟨a, b, 0, hs, hb, hab, WalkN.nil a, by omega⟩

/-! Characterisations of one BFS visiting pass. -/

theorem bfsVisit_vis (lvl : ℕ) :
    ∀ (ns : List String) (vis : Finset String) (h : String → Option ℕ)
      (q : List (String × ℕ)) (x : String),
      x ∈ (bfsVisit lvl ns vis h q).1 ↔ x ∈ vis ∨ x ∈ ns := by
  intro ns
  induction ns with
  | nil =>
    intro vis h q x
    simp [bfsVisit]
  | cons n t ih =>
    intro vis h q x
    unfold bfsVisit
    by_cases hn : n ∈ vis
    · rw [if_pos hn, ih]
      constructor
      · rintro (hx | hx)
        · exact Or.inl hx
        · exact Or.inr (List.mem_cons_of_mem n hx)
      · rintro (hx | hx)
        · exact Or.inl hx
        · rcases List.mem_cons.mp hx with rfl | hx'
          · exact Or.inl hn
          · exact Or.inr hx'
    · rw [if_neg hn, ih]
      constructor
      · rintro (hx | hx)
        · rcases Finset.mem_insert.mp hx with rfl | hx'
          · exact Or.inr (List.mem_cons_self _ _)
          · exact Or.inl hx'
        · exact Or.inr (List.mem_cons_of_mem n hx)
      · rintro (hx | hx)
        · exact Or.inl (Finset.mem_insert_of_mem hx)
        · rcases List.mem_cons.mp hx with rfl | hx'
          · exact Or.inl (Finset.mem_insert_self x vis)
          · exact Or.inr hx'

theorem bfsVisit_h (lvl : ℕ) :
    ∀ (ns : List String) (vis : Finset String) (h : String → Option ℕ)
      (q : List (String × ℕ)) (x : String),
      (bfsVisit lvl ns vis h q).2.1 x =
        if x ∈ ns ∧ x ∉ vis then some (lvl + 1) else h x := by
  intro ns
  induction ns with
  | nil =>
    intro vis h q x
    simp [bfsVisit]
  | cons n t ih =>
    intro vis h q x
    unfold bfsVisit
    by_cases hn : n ∈ vis
    · rw [if_pos hn, ih]
      by_cases hx : x ∈ t ∧ x ∉ vis
      · rw [if_pos hx, if_pos ⟨List.mem_cons_of_mem n hx.1, hx.2⟩]
      · rw [if_neg hx]
        by_cases hx2 : x ∈ n :: t ∧ x ∉ vis
        · rcases List.mem_cons.mp hx2.1 with rfl | hx'
          · exact absurd hn hx2.2
          · exact absurd ⟨hx', hx2.2⟩ hx
        · rw [if_neg hx2]
    · rw [if_neg hn, ih]
      by_cases hxn : x = n
      · subst hxn
        rw [if_neg (fun hh : x ∈ t ∧ x ∉ insert x vis => hh.2 (Finset.mem_insert_self x vis))]
        rw [Function.update_same]
        rw [if_pos ⟨List.mem_cons_self x t, hn⟩]
      · rw [Function.update_noteq hxn]
        by_cases hx : x ∈ t ∧ x ∉ vis
        · rw [if_pos ⟨hx.1, fun hh => hx.2 (Finset.mem_of_mem_insert_of_ne hh hxn)⟩,
            if_pos ⟨List.mem_cons_of_mem n hx.1, hx.2⟩]
        · have hx2 : ¬(x ∈ t ∧ x ∉ insert n vis) := by
            intro hh
            exact hx ⟨hh.1, fun hv => hh.2 (Finset.mem_insert_of_mem hv)⟩
          rw [if_neg hx2]
          by_cases hx3 : x ∈ n :: t ∧ x ∉ vis
          · rcases List.mem_cons.mp hx3.1 with rfl | hx'
            · exact absurd rfl hxn
            · exact absurd ⟨hx', hx3.2⟩ hx
          · rw [if_neg hx3]

theorem bfsVisit_q (lvl : ℕ) :
    ∀ (ns : List String) (vis : Finset String) (h : String → Option ℕ)
      (q : List (String × ℕ)),
      ∃ tl, (bfsVisit lvl ns vis h q).2.2 = q ++ tl ∧
        ∀ p ∈ tl, p.2 = lvl + 1 ∧ p.1 ∉ vis ∧ p.1 ∈ ns := by
  intro ns
  induction ns with
  | nil =>
    intro vis h q
    exact ⟨[], by simp [bfsVisit], by simp⟩
  | cons n t ih =>
    intro vis h q
    unfold bfsVisit
    by_cases hn : n ∈ vis
    · rw [if_pos hn]
      obtain ⟨tl, heq, hp⟩ := ih vis h q
      exact ⟨tl, heq, fun p hp' => ⟨(hp p hp').1, (hp p hp').2.1,
        List.mem_cons_of_mem n (hp p hp').2.2⟩⟩
    · rw [if_neg hn]
      obtain ⟨tl, heq, hp⟩ := ih (insert n vis) (Function.update h n (some (lvl + 1)))
        (q ++ [(n, lvl + 1)])
      refine ⟨(n, lvl + 1) :: tl, ?_, ?_⟩
      · rw [heq, List.append_assoc]
        rfl
      · intro p hp'
        rcases List.mem_cons.mp hp' with rfl | hp''
        · exact ⟨rfl, hn, List.mem_cons_self n t⟩
        · refine ⟨(hp p hp'').1, ?_, List.mem_cons_of_mem n (hp p hp'').2.2⟩
          intro hv
          exact (hp p hp'').2.1 (Finset.mem_insert_of_mem hv)

theorem bfsVisit_q_mem (lvl : ℕ) :
    ∀ (ns : List String) (vis : Finset String) (h : String → Option ℕ)
      (q : List (String × ℕ)) (x : String), x ∈ ns → x ∉ vis →
      ∃ l, (x, l) ∈ (bfsVisit lvl ns vis h q).2.2 := by
  intro ns
  induction ns with
  | nil =>
    intro vis h q x hx
    simp at hx
  | cons n t ih =>
    intro vis h q x hx hxv
    unfold bfsVisit
    by_cases hn : n ∈ vis
    · rw [if_pos hn]
      rcases List.mem_cons.mp hx with rfl | hx'
      · exact absurd hn hxv
      · exact ih vis h q x hx' hxv
    · rw [if_neg hn]
      by_cases hxn : x = n
      · subst hxn
        obtain ⟨tl, heq, _⟩ := bfsVisit_q lvl t (insert x vis)
          (Function.update h x (some (lvl + 1))) (q ++ [(x, lvl + 1)])
        refine ⟨lvl + 1, ?_⟩
        rw [heq]
        exact List.mem_append_left tl (List.mem_append_right q (List.mem_singleton.mpr rfl))
      · rcases List.mem_cons.mp hx with rfl | hx'
        · exact absurd rfl hxn
        · exact ih (insert n vis) (Function.update h n (some (lvl + 1)))
            (q ++ [(n, lvl + 1)]) x hx'
            (fun hv => hxv (Finset.mem_of_mem_insert_of_ne hv hxn))

theorem bfsVisit_card (lvl : ℕ) :
    ∀ (ns : List String) (vis : Finset String) (h : String → Option ℕ)
      (q : List (String × ℕ)),
      (bfsVisit lvl ns vis h q).2.2.length + vis.card =
        q.length + (bfsVisit lvl ns vis h q).1.card := by
  intro ns
  induction ns with
  | nil =>
    intro vis h q
    simp [bfsVisit]
  | cons n t ih =>
    intro vis h q
    unfold bfsVisit
    by_cases hn : n ∈ vis
    · rw [if_pos hn]
      exact ih vis h q
    · rw [if_neg hn]
      have := ih (insert n vis) (Function.update h n (some (lvl + 1))) (q ++ [(n, lvl + 1)])
      rw [Finset.card_insert_of_not_mem hn] at this
      rw [List.length_append] at this
      simp only [List.length_singleton] at this
      omega

theorem list_pairwise_of_mem {α : Type} {R : α → α → Prop} :
    ∀ {l : List α}, (∀ x ∈ l, ∀ y ∈ l, R x y) → l.Pairwise R := by
  intro l
  induction l with
  | nil => intro _; exact List.Pairwise.nil
  | cons x t ih =>
    intro h
    refine List.Pairwise.cons ?_ (ih ?_)
    · intro y hy
      exact h x (List.mem_cons_self x t) y (List.mem_cons_of_mem x hy)
    · intro u hu v hv
      exact h u (List.mem_cons_of_mem x hu) v (List.mem_cons_of_mem x hv)

theorem bfs_inv_step (adjF : String → List String) (U : Finset String)
    (Seed : String → Prop) (hadjU : ∀ a, ∀ b ∈ adjF a, b ∈ U)
    (a : String) (lvl : ℕ) (rest : List (String × ℕ)) (vis : Finset String)
    (h : String → Option ℕ)
    (inv : BfsInv adjF U Seed ((a, lvl) :: rest) vis h) :
    BfsInv adjF U Seed (bfsVisit lvl (adjF a) vis h rest).2.2
      (bfsVisit lvl (adjF a) vis h rest).1 (bfsVisit lvl (adjF a) vis h rest).2.1 := by
  have hv := bfsVisit_vis lvl (adjF a) vis h rest
  have hhc := bfsVisit_h lvl (adjF a) vis h rest
  obtain ⟨tl, hqe, htl⟩ := bfsVisit_q lvl (adjF a) vis h rest
  have hqm := bfsVisit_q_mem lvl (adjF a) vis h rest
  have hha : h a = some lvl := inv.qh (a, lvl) (List.mem_cons_self _ _)
  have hrest_sorted : rest.Pairwise (fun p r => p.2 ≤ r.2) :=
    (List.pairwise_cons.mp inv.sorted).2
  have hhead_le : ∀ p ∈ rest, lvl ≤ p.2 := by
    intro p hp
    exact (List.pairwise_cons.mp inv.sorted).1 p hp
  refine ⟨?_, ?_, ?_, ?_, ?_, ?_, ?_, ?_, ?_⟩
  · -- visU
    intro x hx
    rcases (hv x).mp hx with hx' | hx'
    · exact inv.visU hx'
    · exact hadjU a x hx'
  · -- dom
    intro v
    rw [hhc v]
    by_cases hc : v ∈ adjF a ∧ v ∉ vis
    · rw [if_pos hc]
      simp only [Option.isSome_some, true_iff]
      exact (hv v).mpr (Or.inr hc.1)
    · rw [if_neg hc]
      rw [inv.dom v]
      constructor
      · intro hvv
        exact (hv v).mpr (Or.inl hvv)
      · intro hvr
        rcases (hv v).mp hvr with hvv | hva
        · exact hvv
        · by_contra hvv
          exact hc ⟨hva, hvv⟩
  · -- qh
    intro p hp
    rw [hqe] at hp
    rcases List.mem_append.mp hp with hp' | hp'
    · have hold : h p.1 = some p.2 := inv.qh p (List.mem_cons_of_mem _ hp')
      have hpv : p.1 ∈ vis := (inv.dom p.1).mp (by rw [hold]; rfl)
      rw [hhc p.1, if_neg (fun hh : p.1 ∈ adjF a ∧ p.1 ∉ vis => hh.2 hpv)]
      exact hold
    · obtain ⟨h2, h3, h4⟩ := htl p hp'
      rw [hhc p.1, if_pos ⟨h4, h3⟩, h2]
  · -- sorted
    rw [hqe]
    rw [List.pairwise_append]
    refine ⟨hrest_sorted, ?_, ?_⟩
    · refine list_pairwise_of_mem ?_
      intro x hx y hy
      rw [(htl x hx).1, (htl y hy).1]
    · intro p hp p' hp'
      have h1 : p.2 ≤ lvl + 1 :=
        inv.width p (List.mem_cons_of_mem _ hp) (a, lvl) (List.mem_cons_self _ _)
      rw [(htl p' hp').1]
      exact h1
  · -- width
    intro p hp p' hp'
    rw [hqe] at hp hp'
    rcases List.mem_append.mp hp with hp1 | hp1 <;>
      rcases List.mem_append.mp hp' with hp2 | hp2
    · exact inv.width p (List.mem_cons_of_mem _ hp1) p' (List.mem_cons_of_mem _ hp2)
    · have h1 : p.2 ≤ lvl + 1 :=
        inv.width p (List.mem_cons_of_mem _ hp1) (a, lvl) (List.mem_cons_self _ _)
      rw [(htl p' hp2).1]
      omega
    · rw [(htl p hp1).1]
      have := hhead_le p' hp2
      omega
    · rw [(htl p hp1).1, (htl p' hp2).1]
      omega
  · -- seeds_vis
    intro s hs
    exact (hv s).mpr (Or.inl (inv.seeds_vis s hs))
  · -- hA
    intro v k hk
    rw [hhc v] at hk
    by_cases hc : v ∈ adjF a ∧ v ∉ vis
    · rw [if_pos hc] at hk
      obtain ⟨s, hs, w⟩ := inv.hA a lvl hha
      have hk' : k = lvl + 1 := (Option.some.inj hk).symm
      subst hk'
      exact ⟨s, hs, walkN_snoc w hc.1⟩
    · rw [if_neg hc] at hk
      exact inv.hA v k hk
  · -- hB
    intro v k hk s j hs w
    rw [hhc v] at hk
    by_cases hc : v ∈ adjF a ∧ v ∉ vis
    · rw [if_pos hc] at hk
      have hk' : k = lvl + 1 := (Option.some.inj hk).symm
      subst hk'
      have hsvis : s ∈ vis := inv.seeds_vis s hs
      obtain ⟨x, y, m, hx, hy, hyx, wx, hm⟩ := walk_first_crossing w hsvis hc.2
      by_cases hxq : ∀ l', (x, l') ∉ (a, lvl) :: rest
      · exact absurd (inv.closed x hx hxq y hyx) hy
      · push_neg at hxq
        obtain ⟨lx, hlx⟩ := hxq
        have hhx : h x = some lx := inv.qh (x, lx) hlx
        have hlxm : lx ≤ m := inv.hB x lx hhx s m hs wx
        have hlvl_lx : lvl ≤ lx := by
          rcases List.mem_cons.mp hlx with heq | hmem
          · have : lx = lvl := congrArg Prod.snd heq
            omega
          · exact hhead_le (x, lx) hmem
        omega
    · rw [if_neg hc] at hk
      exact inv.hB v k hk s j hs w
  · -- closed
    intro v hvis hnotq n hn
    by_cases hvv : v ∈ vis
    · by_cases hveq : v = a
      · subst hveq
        exact (hv n).mpr (Or.inr hn)
      · have hnot_old : ∀ l, (v, l) ∉ (a, lvl) :: rest := by
          intro l hl
          rcases List.mem_cons.mp hl with heq | hmem
          · exact hveq (congrArg Prod.fst heq)
          · exact hnotq l (by rw [hqe]; exact List.mem_append_left tl hmem)
        exact (hv n).mpr (Or.inl (inv.closed v hvv hnot_old n hn))
    · rcases (hv v).mp hvis with hvv' | hva
      · exact absurd hvv' hvv
      · obtain ⟨l, hl⟩ := hqm v hva hvv
        exact absurd hl (hnotq l)

theorem bfs_goal_of_quiescent (adjF : String → List String) (U : Finset String)
    (Seed : String → Prop) (vis : Finset String) (h : String → Option ℕ)
    (inv : BfsInv adjF U Seed [] vis h) : BfsGoal adjF Seed h := by
  refine ⟨fun v k hk => inv.hA v k hk, fun v k hk => inv.hB v k hk, ?_⟩
  intro s v j hs w
  have hclosed : ∀ x ∈ vis, ∀ n ∈ adjF x, n ∈ vis := by
    intro x hx n hn
    exact inv.closed x hx (fun l hl => by simp at hl) n hn
  have hviss : v ∈ vis := walk_in_vis hclosed w (inv.seeds_vis s hs)
  exact (inv.dom v).mpr hviss

theorem bfs_aux_spec (adjF : String → List String) (U : Finset String)
    (Seed : String → Prop) (hadjU : ∀ a, ∀ b ∈ adjF a, b ∈ U) :
    ∀ (fuel : ℕ) (q : List (String × ℕ)) (vis : Finset String) (h : String → Option ℕ),
      BfsInv adjF U Seed q vis h → q.length + U.card ≤ fuel + vis.card →
      BfsGoal adjF Seed (bfsAux adjF fuel q vis h) := by
  intro fuel
  induction fuel with
  | zero =>
    intro q vis h inv hle
    have hvc : vis.card ≤ U.card := Finset.card_le_card inv.visU
    have hq : q.length = 0 := by omega
    have hqnil : q = [] := List.length_eq_zero.mp hq
    subst hqnil
    show BfsGoal adjF Seed h
    exact bfs_goal_of_quiescent adjF U Seed vis h inv
  | succ fuel ih =>
    intro q vis h inv hle
    cases q with
    | nil =>
      show BfsGoal adjF Seed h
      exact bfs_goal_of_quiescent adjF U Seed vis h inv
    | cons p rest =>
      obtain ⟨a, lvl⟩ := p
      show BfsGoal adjF Seed (bfsAux adjF fuel (bfsVisit lvl (adjF a) vis h rest).2.2
        (bfsVisit lvl (adjF a) vis h rest).1 (bfsVisit lvl (adjF a) vis h rest).2.1)
      apply ih
      · exact bfs_inv_step adjF U Seed hadjU a lvl rest vis h inv
      · have hcard := bfsVisit_card lvl (adjF a) vis h rest
        simp only [List.length_cons] at hle
        omega

/-! Characterisations of the BFS seeding pass. -/

theorem seedOne_q (b : String) :
    ∀ (vl : List String) (st : List (String × ℕ) × Finset String × (String → Option ℕ))
      (p : String × ℕ),
      p ∈ (seedOne vl b st).1 ↔
        p ∈ st.1 ∨ (p.2 = 0 ∧ p.1 ∈ vl ∧ strLower p.1 = strLower b) := by
  intro vl
  induction vl with
  | nil =>
    intro st p
    simp [seedOne]
  | cons n t ih =>
    intro st p
    unfold seedOne
    rw [List.foldl_cons]
    show p ∈ (seedOne t b _).1 ↔ _
    rw [ih]
    by_cases hc : strLower n = strLower b
    · rw [if_pos hc]
      dsimp only
      rw [List.mem_append]
      constructor
      · rintro ((hp | hp) | hp)
        · exact Or.inl hp
        · rcases List.mem_singleton.mp hp with rfl
          exact Or.inr ⟨rfl, List.mem_cons_self n t, hc⟩
        · exact Or.inr ⟨hp.1, List.mem_cons_of_mem n hp.2.1, hp.2.2⟩
      · rintro (hp | ⟨h0, hmem, hm⟩)
        · exact Or.inl (Or.inl hp)
        · rcases List.mem_cons.mp hmem with rfl | hmem'
          · refine Or.inl (Or.inr ?_)
            rw [List.mem_singleton, Prod.ext_iff]
            exact ⟨rfl, h0⟩
          · exact Or.inr ⟨h0, hmem', hm⟩
    · rw [if_neg hc]
      constructor
      · rintro (hp | hp)
        · exact Or.inl hp
        · exact Or.inr ⟨hp.1, List.mem_cons_of_mem n hp.2.1, hp.2.2⟩
      · rintro (hp | ⟨h0, hmem, hm⟩)
        · exact Or.inl hp
        · rcases List.mem_cons.mp hmem with rfl | hmem'
          · exact absurd hm hc
          · exact Or.inr ⟨h0, hmem', hm⟩

theorem seedOne_vis (b : String) :
    ∀ (vl : List String) (st : List (String × ℕ) × Finset String × (String → Option ℕ))
      (v : String),
      v ∈ (seedOne vl b st).2.1 ↔
        v ∈ st.2.1 ∨ (v ∈ vl ∧ strLower v = strLower b) := by
  intro vl
  induction vl with
  | nil =>
    intro st v
    simp [seedOne]
  | cons n t ih =>
    intro st v
    unfold seedOne
    rw [List.foldl_cons]
    show v ∈ (seedOne t b _).2.1 ↔ _
    rw [ih]
    by_cases hc : strLower n = strLower b
    · rw [if_pos hc]
      dsimp only
      constructor
      · rintro (hp | hp)
        · rcases Finset.mem_insert.mp hp with rfl | hp'
          · exact Or.inr ⟨List.mem_cons_self _ _, hc⟩
          · exact Or.inl hp'
        · exact Or.inr ⟨List.mem_cons_of_mem n hp.1, hp.2⟩
      · rintro (hp | ⟨hmem, hm⟩)
        · exact Or.inl (Finset.mem_insert_of_mem hp)
        · rcases List.mem_cons.mp hmem with rfl | hmem'
          · exact Or.inl (Finset.mem_insert_self v _)
          · exact Or.inr ⟨hmem', hm⟩
    · rw [if_neg hc]
      constructor
      · rintro (hp | hp)
        · exact Or.inl hp
        · exact Or.inr ⟨List.mem_cons_of_mem n hp.1, hp.2⟩
      · rintro (hp | ⟨hmem, hm⟩)
        · exact Or.inl hp
        · rcases List.mem_cons.mp hmem with rfl | hmem'
          · exact absurd hm hc
          · exact Or.inr ⟨hmem', hm⟩

theorem seedOne_h (b : String) :
    ∀ (vl : List String) (st : List (String × ℕ) × Finset String × (String → Option ℕ))
      (v : String),
      (seedOne vl b st).2.2 v =
        if v ∈ vl ∧ strLower v = strLower b then some 0 else st.2.2 v := by
  intro vl
  induction vl with
  | nil =>
    intro st v
    simp [seedOne]
  | cons n t ih =>
    intro st v
    unfold seedOne
    rw [List.foldl_cons]
    show (seedOne t b _).2.2 v = _
    rw [ih]
    by_cases hc : strLower n = strLower b
    · rw [if_pos hc]
      dsimp only
      by_cases hvn : v = n
      · subst hvn
        by_cases hvt : v ∈ t ∧ strLower v = strLower b
        · rw [if_pos hvt, if_pos ⟨List.mem_cons_self v t, hvt.2⟩]
        · rw [if_neg hvt, Function.update_same,
            if_pos ⟨List.mem_cons_self v t, hc⟩]
      · rw [Function.update_noteq hvn]
        by_cases hvt : v ∈ t ∧ strLower v = strLower b
        · rw [if_pos hvt, if_pos ⟨List.mem_cons_of_mem n hvt.1, hvt.2⟩]
        · rw [if_neg hvt]
          by_cases hvc : v ∈ n :: t ∧ strLower v = strLower b
          · rcases List.mem_cons.mp hvc.1 with rfl | hvt'
            · exact absurd rfl hvn
            · exact absurd ⟨hvt', hvc.2⟩ hvt
          · rw [if_neg hvc]
    · rw [if_neg hc]
      by_cases hvt : v ∈ t ∧ strLower v = strLower b
      · rw [if_pos hvt, if_pos ⟨List.mem_cons_of_mem n hvt.1, hvt.2⟩]
      · rw [if_neg hvt]
        by_cases hvc : v ∈ n :: t ∧ strLower v = strLower b
        · rcases List.mem_cons.mp hvc.1 with rfl | hvt'
          · exact absurd hvc.2 hc
          · exact absurd ⟨hvt', hvc.2⟩ hvt
        · rw [if_neg hvc]

theorem seedAll_h (vl : List String) :
    ∀ (bases : List String)
      (st : List (String × ℕ) × Finset String × (String → Option ℕ)) (v : String),
      (bases.foldl (fun st b => seedOne vl b st) st).2.2 v =
        if v ∈ vl ∧ ∃ b ∈ bases, strLower v = strLower b then some 0 else st.2.2 v := by
  intro bases
  induction bases with
  | nil =>
    intro st v
    simp
  | cons b bs ih =>
    intro st v
    rw [List.foldl_cons, ih, seedOne_h]
    by_cases h1 : v ∈ vl ∧ ∃ b' ∈ bs, strLower v = strLower b'
    · have hex : v ∈ vl ∧ ∃ b' ∈ b :: bs, strLower v = strLower b' := by
        obtain ⟨b', hb', hm⟩ := h1.2
        exact ⟨h1.1, b', List.mem_cons_of_mem b hb', hm⟩
      rw [if_pos h1, if_pos hex]
    · rw [if_neg h1]
      by_cases h2 : v ∈ vl ∧ strLower v = strLower b
      · rw [if_pos h2, if_pos ⟨h2.1, b, List.mem_cons_self b bs, h2.2⟩]
      · have hnex : ¬(v ∈ vl ∧ ∃ b' ∈ b :: bs, strLower v = strLower b') := by
          rintro ⟨hvl, b', hb', hm⟩
          rcases List.mem_cons.mp hb' with rfl | hb''
          · exact h2 ⟨hvl, hm⟩
          · exact h1 ⟨hvl, b', hb'', hm⟩
        rw [if_neg h2, if_neg hnex]

theorem seedAll_vis (vl : List String) :
    ∀ (bases : List String)
      (st : List (String × ℕ) × Finset String × (String → Option ℕ)) (v : String),
      v ∈ (bases.foldl (fun st b => seedOne vl b st) st).2.1 ↔
        v ∈ st.2.1 ∨ (v ∈ vl ∧ ∃ b ∈ bases, strLower v = strLower b) := by
  intro bases
  induction bases with
  | nil =>
    intro st v
    simp
  | cons b bs ih =>
    intro st v
    rw [List.foldl_cons, ih, seedOne_vis]
    constructor
    · rintro ((hp | hp) | hp)
      · exact Or.inl hp
      · exact Or.inr ⟨hp.1, b, List.mem_cons_self b bs, hp.2⟩
      · obtain ⟨hvl, b', hb', hm⟩ := hp
        exact Or.inr ⟨hvl, b', List.mem_cons_of_mem b hb', hm⟩
    · rintro (hp | ⟨hvl, b', hb', hm⟩)
      · exact Or.inl (Or.inl hp)
      · rcases List.mem_cons.mp hb' with rfl | hb''
        · exact Or.inl (Or.inr ⟨hvl, hm⟩)
        · exact Or.inr ⟨hvl, b', hb'', hm⟩

theorem seedAll_q (vl : List String) :
    ∀ (bases : List String)
      (st : List (String × ℕ) × Finset String × (String → Option ℕ)) (p : String × ℕ),
      p ∈ (bases.foldl (fun st b => seedOne vl b st) st).1 ↔
        p ∈ st.1 ∨ (p.2 = 0 ∧ p.1 ∈ vl ∧ ∃ b ∈ bases, strLower p.1 = strLower b) := by
  intro bases
  induction bases with
  | nil =>
    intro st p
    simp
  | cons b bs ih =>
    intro st p
    rw [List.foldl_cons, ih, seedOne_q]
    constructor
    · rintro ((hp | hp) | hp)
      · exact Or.inl hp
      · exact Or.inr ⟨hp.1, hp.2.1, b, List.mem_cons_self b bs, hp.2.2⟩
      · obtain ⟨h0, hvl, b', hb', hm⟩ := hp
        exact Or.inr ⟨h0, hvl, b', List.mem_cons_of_mem b hb', hm⟩
    · rintro (hp | ⟨h0, hvl, b', hb', hm⟩)
      · exact Or.inl (Or.inl hp)
      · rcases List.mem_cons.mp hb' with rfl | hb''
        · exact Or.inl (Or.inr ⟨h0, hvl, hm⟩)
        · exact Or.inr ⟨h0, hvl, b', hb'', hm⟩

theorem bfs_seed_inv (adjF : String → List String) (vl : List String)
    (bases : List String) :
    BfsInv adjF vl.toFinset (SeedP vl bases) (bfsSeed vl bases).1
      (bfsSeed vl bases).2.1 (bfsSeed vl bases).2.2 := by
  unfold bfsSeed
  have hq := seedAll_q vl bases ([], ∅, fun _ => none)
  have hv := seedAll_vis vl bases ([], ∅, fun _ => none)
  have hh := seedAll_h vl bases ([], ∅, fun _ => none)
  refine ⟨?_, ?_, ?_, ?_, ?_, ?_, ?_, ?_, ?_⟩
  · intro x hx
    rcases (hv x).mp hx with hx' | hx'
    · exact absurd hx' (Finset.not_mem_empty x)
    · exact List.mem_toFinset.mpr hx'.1
  · intro v
    rw [hh v]
    by_cases hc : v ∈ vl ∧ ∃ b ∈ bases, strLower v = strLower b
    · rw [if_pos hc]
      simp only [Option.isSome_some, true_iff]
      exact (hv v).mpr (Or.inr hc)
    · rw [if_neg hc]
      simp only [Option.isSome_none, Bool.false_eq_true, false_iff]
      intro hvv
      rcases (hv v).mp hvv with hx' | hx'
      · exact Finset.not_mem_empty v hx'
      · exact hc hx'
  · intro p hp
    rcases (hq p).mp hp with hp' | hp'
    · simp at hp'
    · rw [hh p.1, if_pos ⟨hp'.2.1, hp'.2.2⟩, hp'.1]
  · refine list_pairwise_of_mem ?_
    intro x hx y hy
    rcases (hq x).mp hx with hx' | hx'
    · simp at hx'
    · rcases (hq y).mp hy with hy' | hy'
      · simp at hy'
      · rw [hx'.1, hy'.1]
  · intro p hp p' hp'
    rcases (hq p).mp hp with hp1 | hp1
    · simp at hp1
    · rw [hp1.1]
      omega
  · intro s hs
    exact (hv s).mpr (Or.inr hs)
  · intro v k hk
    rw [hh v] at hk
    by_cases hc : v ∈ vl ∧ ∃ b ∈ bases, strLower v = strLower b
    · rw [if_pos hc] at hk
      have hk0 : k = 0 := (Option.some.inj hk).symm
      subst hk0
      exact ⟨v, hc, WalkN.nil v⟩
    · rw [if_neg hc] at hk
      exact absurd hk (by simp)
  · intro v k hk s j hs w
    rw [hh v] at hk
    by_cases hc : v ∈ vl ∧ ∃ b ∈ bases, strLower v = strLower b
    · rw [if_pos hc] at hk
      have hk0 : k = 0 := (Option.some.inj hk).symm
      omega
    · rw [if_neg hc] at hk
      exact absurd hk (by simp)
  · intro v hvis hnotq n hn
    rcases (hv v).mp hvis with hx' | hx'
    · exact absurd hx' (Finset.not_mem_empty v)
    · exact absurd ((hq (v, 0)).mpr (Or.inr ⟨rfl, hx'.1, hx'.2⟩)) (hnotq 0)

theorem hopMapOf_goal (st : GState String) (bases : List String)
    (hadjU : ∀ a, ∀ b ∈ adjOf st a, b ∈ (validNodesOf st).toFinset) :
    BfsGoal (adjOf st) (SeedP (validNodesOf st) bases) (hopMapOf st bases) := by
  unfold hopMapOf
  apply bfs_aux_spec (adjOf st) (validNodesOf st).toFinset
    (SeedP (validNodesOf st) bases) hadjU
  · exact bfs_seed_inv (adjOf st) (validNodesOf st) bases
  · have hcl := List.toFinset_card_le (validNodesOf st)
    omega

/-! Claim C1: the hop labeler computes exact shortest undirected-edge
distances from the nearest base address. -/

/-- C1: for every filtered transfer set and base-address set, the hop
labeler is exactly the multi-source shortest-distance function of the
built undirected graph: a node with defined hop k admits a walk of
exactly k undirected edges from some seed (a universe node matching a
base address case-insensitively) and no shorter walk from any seed
exists; every node reachable from some seed gets a defined hop; and
unreachable nodes keep an undefined hop. -/
theorem c1_hop_is_shortest (data : List Transfer) (bases : List String) (v : String) :
    (∀ k, hopMapOf (buildMaps data) bases v = some k →
      (∃ s, SeedP (validNodesOf (buildMaps data)) bases s ∧
        UWalkN (adjOf (buildMaps data)) s v k) ∧
      (∀ s j, SeedP (validNodesOf (buildMaps data)) bases s →
        UWalkN (adjOf (buildMaps data)) s v j → k ≤ j)) ∧
    ((∃ s j, SeedP (validNodesOf (buildMaps data)) bases s ∧
        UWalkN (adjOf (buildMaps data)) s v j) →
      (hopMapOf (buildMaps data) bases v).isSome) ∧
    ((¬ ∃ s j, SeedP (validNodesOf (buildMaps data)) bases s ∧
        UWalkN (adjOf (buildMaps data)) s v j) →
      hopMapOf (buildMaps data) bases v = none) := by
  have hsymm : ∀ a b, b ∈ adjOf (buildMaps data) a → a ∈ adjOf (buildMaps data) b :=
    fun a b => adjOf_buildMaps_symm data a b
  have hadjU : ∀ a, ∀ b ∈ adjOf (buildMaps data) a, b ∈ (validNodesOf (buildMaps data)).toFinset :=
    fun a b hb => List.mem_toFinset.mpr (adjOf_buildMaps_sub_validNodes data a b hb)
  have G := hopMapOf_goal (buildMaps data) bases hadjU
  refine ⟨?_, ?_, ?_⟩
  · intro k hk
    obtain ⟨s, hs, w⟩ := G.1 v k hk
    refine ⟨⟨s, hs, uwalkN_of_walkN w⟩, ?_⟩
    intro s' j hs' uw
    exact G.2.1 v k hk s' j hs' (walkN_of_uwalkN hsymm uw)
  · rintro ⟨s, j, hs, uw⟩
    exact G.2.2 s v j hs (walkN_of_uwalkN hsymm uw)
  · intro hne
    cases hh : hopMapOf (buildMaps data) bases v with
    | none => rfl
    | some k =>
      obtain ⟨s, hs, w⟩ := G.1 v k hh
      exact absurd ⟨s, k, hs, uwalkN_of_walkN w⟩ hne

/-- C1 witness: on the single transfer from a to b with base address a,
node b has hop 1 and the theorem yields the walk of length 1 from a seed
together with minimality. -/
theorem c1_witness :
    (∃ s, SeedP (validNodesOf (buildMaps [mkNative "a" "b" 1])) ["a"] s ∧
      UWalkN (adjOf (buildMaps [mkNative "a" "b" 1])) s "b" 1) ∧
    (∀ s j, SeedP (validNodesOf (buildMaps [mkNative "a" "b" 1])) ["a"] s →
      UWalkN (adjOf (buildMaps [mkNative "a" "b" 1])) s "b" j → 1 ≤ j) :=
  (c1_hop_is_shortest [mkNative "a" "b" 1] ["a"] "b").1 1 (by decide)
